import Mathlib

/-!
Verification of the go-slackjira message ingestion / issue-resolution pipeline
(`main.go`).  The Go program is shallowly embedded: pure functions become Lean
functions, the HTTP round trips become explicit outcome values fed to the
functions that consume them, runtime panics (nil-pointer dereferences) become
an explicit `GoResult.panic` constructor, and the compiled regular expression
built by `buildPattern` is embedded by its matching semantics (Go's regexp
package uses leftmost-first, Perl-style alternation semantics; `FindAll`
scans for successive non-overlapping matches, skipping an empty match that
directly follows the previous match and advancing one character after an
empty match).
-/

set_option maxRecDepth 20000

/-! ## Character classes of the pattern

Go's `\w` is `[0-9A-Za-z_]`, `\W` its complement; `\d` is `[0-9]`. -/

def isWordChar (c : Char) : Bool := c.isAlphanum || c == '_'

/-- The character of `s` at position `p`, if any. -/
def charAt (s : List Char) (p : Nat) : Option Char := (s.drop p).head?

/-! ## Data model: Jira projects -/

/-- `Project` from main.go: `ID string; KEY string` (JSON `id`, `key`). -/
structure Project where
  id : String
  key : String
deriving DecidableEq, Repr

/-- The project keys in the order the global `Projects` slice holds them. -/
def projectKeys (ps : List Project) : List String := ps.map Project.key

/-- `buildPattern`: the pattern source string it assembles,
`(?:\W|^)((` + KEY₁ + `|` + … + KEYₙ + `|` + `)-\d+)(\+)?|$`.
Each key is followed by `|`, so the key group always ends with an empty
alternative; the whole pattern ends with a top-level empty-capture `|$`
alternative. -/
def buildPatternString (ps : List Project) : String :=
  "(?:\\W|^)((" ++ (ps.foldl (fun acc p => acc ++ p.key ++ "|") "") ++ ")-\\d+)(\\+)?|$"

/-! ## Matching semantics of the compiled pattern

The pattern has the fixed shape `(?:\W|^)((K1|K2|…|)-\d+)(\+)?|$` over the
runes of the text.  We spell out its leftmost-first matching semantics piece
by piece.  Group 1 (the capture `processEvents` uses as `v[1]`) is
`((K1|K2|…|)-\d+)`. -/

/-- `-\d+`: a hyphen followed by a greedy, nonempty digit run.  Returns the
consumed characters and the remainder. -/
def matchHyphenDigits : List Char → Option (List Char × List Char)
  | '-' :: rest =>
    if rest.takeWhile Char.isDigit = [] then none
    else some ('-' :: rest.takeWhile Char.isDigit, rest.dropWhile Char.isDigit)
  | _ => none

/-- One alternative `K` of the key group followed by the group's mandatory
continuation `-\d+`: the alternative succeeds only if `K` is a literal prefix
and the continuation matches after it. -/
def tryKeyAlt (alt : List Char) (cs : List Char) : Option (List Char × List Char) :=
  if alt.isPrefixOf cs then
    match matchHyphenDigits (cs.drop alt.length) with
    | none => none
    | some (pr, rest) => some (alt ++ pr, rest)
  else none

/-- Leftmost-first alternation over the key alternatives: the first
alternative whose continuation also succeeds wins. -/
def matchGroup1Alts : List (List Char) → List Char → Option (List Char × List Char)
  | [], _ => none
  | a :: as, cs =>
    match tryKeyAlt a cs with
    | some r => some r
    | none => matchGroup1Alts as cs

/-- Group 1, `((K1|K2|…|)-\d+)`: the alternatives are the keys in order
followed by the empty alternative (from the trailing `|` that `buildPattern`
appends after every key). -/
def matchGroup1 (keys : List String) (cs : List Char) : Option (List Char × List Char) :=
  matchGroup1Alts (keys.map String.toList ++ [[]]) cs

/-- `(\+)?`: greedily consume one `+` if present; contributes to the overall
match but not to group 1. -/
def plusLen : List Char → Nat
  | [] => 0
  | x :: _ => if x = '+' then 1 else 0

/-- Group 1 attempted at absolute position `start`, with the trailing
`(\+)?`: yields (capture of group 1, capture start, match end). -/
def alt1Attempt (keys : List String) (s : List Char) (start : Nat) :
    Option (List Char × Nat × Nat) :=
  match matchGroup1 keys (s.drop start) with
  | none => none
  | some (g, rest) => some (g, start, start + g.length + plusLen rest)

/-- The first top-level alternative `(?:\W|^)((…)-\d+)(\+)?` attempted at
position `i`.  Leftmost-first order: the `\W` branch (consume one non-word
character) is tried before the `^` branch (which matches only at position 0
and consumes nothing). -/
def matchAlt1At (keys : List String) (s : List Char) (i : Nat) :
    Option (List Char × Nat × Nat) :=
  match s.drop i with
  | c :: _ =>
    if isWordChar c then (if i = 0 then alt1Attempt keys s 0 else none)
    else
      match alt1Attempt keys s (i + 1) with
      | some r => some r
      | none => if i = 0 then alt1Attempt keys s 0 else none
  | [] => if i = 0 then alt1Attempt keys s 0 else none

/-- One regexp match: `capture` is group 1 (`v[1]`, empty when the match came
from the `$` alternative, where group 1 does not participate), `mStart` the
match start, `capStart` the capture start, `mEnd` the match end. -/
structure MatchResult where
  capture : List Char
  mStart : Nat
  capStart : Nat
  mEnd : Nat
deriving DecidableEq, Repr

/-- The leftmost-first match at a position `≥ i`: scan positions upward, at
each one trying the first alternative and then `$` (which matches only at
end of text).  `fuel ≥ s.length + 1 - i` guarantees the scan completes; the
result is `none` only for `i > s.length`. -/
def findFrom (keys : List String) (s : List Char) : Nat → Nat → Option MatchResult
  | 0, _ => none
  | fuel + 1, i =>
    if i > s.length then none
    else
      match matchAlt1At keys s i with
      | some (g, cs, e) => some ⟨g, i, cs, e⟩
      | none =>
        if i = s.length then some ⟨[], s.length, s.length, s.length⟩
        else findFrom keys s fuel (i + 1)

/-- `FindAllStringSubmatch(text, -1)`: successive leftmost matches.  Go's
`allMatches` records the previous match end; an empty match at exactly the
previous match end is skipped, and after an empty match the scan position
advances by one character (otherwise to the match end). -/
def findAllFrom (keys : List String) (s : List Char) :
    Nat → Nat → Int → List MatchResult
  | 0, _, _ => []
  | fuel + 1, i, prevEnd =>
    match findFrom keys s (s.length + 1) i with
    | none => []
    | some m =>
      if m.capture = [] then
        if (m.mEnd : Int) = prevEnd then findAllFrom keys s fuel (i + 1) m.mEnd
        else m :: findAllFrom keys s fuel (i + 1) m.mEnd
      else m :: findAllFrom keys s fuel m.mEnd m.mEnd

/-- All matches of the compiled pattern in `s`, in order. -/
def findAllList (keys : List String) (s : List Char) : List MatchResult :=
  findAllFrom keys s (s.length + 2) 0 (-1)

/-! ## The Jira HTTP client -/

/-- Outcome of a Go computation: either a runtime panic (for the nil-pointer
dereferences the code can hit) or a value. -/
inductive GoResult (α : Type) where
  | panic (msg : String)
  | ok (val : α)
deriving DecidableEq, Repr

/-- The Go runtime's message for a nil pointer dereference. -/
def nilDerefMsg : String := "runtime error: invalid memory address or nil pointer dereference"

/-- The result of one HTTP round trip as the client code observes it:
`transportError` is `httpClient.Do` returning a nil response together with an
error (network/transport failure); `bodyReadError` is a successful `Do`
whose body `ioutil.ReadAll` fails to read; `body` is a fully read body. -/
inductive HttpResult (β : Type) where
  | transportError
  | bodyReadError (status : Nat)
  | body (status : Nat) (data : β)
deriving DecidableEq, Repr

/-- A response body from the point of view of `json.Unmarshal`: either it
fails to decode, or it decodes to a value of the target type (absent JSON
fields leave Go zero values: nil pointers become `none`, strings ""). -/
inductive JsonBody (α : Type) where
  | malformed
  | value (a : α)
deriving DecidableEq, Repr

/-- `consumeResponse`: on a transport error the code executes
`return response.StatusCode, nil, err` with `response` nil — a nil-pointer
dereference, i.e. a panic.  On a body read error it returns the status with a
non-nil error (callers check the error before the status).  Otherwise it
returns status and body with a nil error. -/
def consumeResponse {β : Type} : HttpResult β → GoResult (Except String (Nat × β))
  | .transportError => .panic nilDerefMsg
  | .bodyReadError _ => .ok (.error "body read error")
  | .body s d => .ok (.ok (s, d))

/-- The error string `fmt.Errorf("error getting project.  Status code: %d.\n", rc)`. -/
def statusErrMsg (rc : Nat) : String :=
  "error getting project.  Status code: " ++ toString rc ++ ".\n"

/-- `Assignee` -/
structure AssigneeP where
  displayName : String
deriving DecidableEq, Repr

/-- `Creator` -/
structure CreatorP where
  displayName : String
deriving DecidableEq, Repr

/-- `IssueType` -/
structure IssueTypeP where
  iconURL : String
  name : String
deriving DecidableEq, Repr

/-- `Priority` -/
structure PriorityP where
  name : String
  iconURL : String
deriving DecidableEq, Repr

/-- `Status` -/
structure StatusP where
  name : String
  iconURL : String
deriving DecidableEq, Repr

/-- `IssueFields`: every field of the Go struct is a pointer except
`Summary`, so absent JSON fields decode to `none` (resp. `""`). -/
structure IssueFieldsP where
  issueType : Option IssueTypeP
  summary : String
  creator : Option CreatorP
  assignee : Option AssigneeP
  priority : Option PriorityP
  status : Option StatusP
deriving DecidableEq, Repr

/-- `Issue`: `Key string; Fields *IssueFields`. -/
structure IssueP where
  key : String
  fields : Option IssueFieldsP
deriving DecidableEq, Repr

/-- `GetIssue`, as a function of the HTTP outcome of its one request: check
the `consumeResponse` error, then the status code, then unmarshal, then the
`issue.Key == ""` guard; finally the assignee normalization
`if issue.Fields.Assignee == nil { issue.Fields.Assignee = &Assignee{"Unassigned"} }`,
which dereferences `issue.Fields` — a panic when the payload has no `fields`
object. -/
def GetIssue (resp : HttpResult (JsonBody IssueP)) : GoResult (Except String IssueP) :=
  match consumeResponse resp with
  | .panic m => .panic m
  | .ok (.error e) => .ok (.error e)
  | .ok (.ok (rc, dat)) =>
    if rc ≠ 200 then .ok (.error (statusErrMsg rc))
    else
      match dat with
      | .malformed => .ok (.error "unmarshal error")
      | .value p =>
        if p.key = "" then .ok (.error "No Issue were found")
        else
          match p.fields with
          | none => .panic nilDerefMsg
          | some f =>
            .ok (.ok ⟨p.key,
              some { f with assignee := some (match f.assignee with
                                              | none => ⟨"Unassigned"⟩
                                              | some a => a) }⟩)

/-- `GetProjects`, as a function of the HTTP outcome of the project-listing
request: error check, status check, unmarshal into the global `Projects`
slice (returned here; on failure the global keeps its previous value). -/
def GetProjects (resp : HttpResult (JsonBody (List Project))) :
    GoResult (Except String (List Project)) :=
  match consumeResponse resp with
  | .panic m => .panic m
  | .ok (.error e) => .ok (.error e)
  | .ok (.ok (rc, dat)) =>
    if rc ≠ 200 then .ok (.error (statusErrMsg rc))
    else
      match dat with
      | .malformed => .ok (.error "unmarshal error")
      | .value ps => .ok (.ok ps)

/-! ## Notification rendering -/

def yellow : String := "#FFD442"
def green : String := "#048A25"
def blue : String := "#496686"
def jiraIcon : String := "https://globus.atlassian.net/images/64jira.png"

/-- `getColor`: the status-name switch with yellow default. -/
def getColor (status : String) : String :=
  if status = "Open" then blue
  else if status = "Reopened" then blue
  else if status = "To Do" then blue
  else if status = "Resolved" then green
  else if status = "Closed" then green
  else if status = "Done" then green
  else yellow

/-- The slack attachment `sendMessage` posts (plus the fixed message
parameters it sets). -/
structure Attachment where
  title : String
  titleLink : String
  text : String
  color : String
  markdownIn : List String
  iconURL : String
  username : String
deriving DecidableEq, Repr

/-- `sendMessage`: formats the card.  The `fmt.Sprintf` dereferences
`issue.Fields`, `issue.Fields.Assignee` and `issue.Fields.Priority`, and the
attachment dereferences `issue.Fields.Status` — each a panic when nil.
`hostURL` is the `jiraHostURL` read from the environment at startup.  The
actual `Slack.PostMessage` call is an external collaborator; its possible
error is logged and returned, but `processEvents` ignores it, so we model the
dispatch by the attachment it posts. -/
def sendMessage (hostURL : String) (issue : IssueP) (channel : String) :
    GoResult (String × Attachment) :=
  match issue.fields with
  | none => .panic nilDerefMsg
  | some f =>
    match f.assignee, f.priority, f.status with
    | some a, some pr, some st =>
      .ok (channel,
        { title := issue.key
          titleLink := hostURL ++ "/browse/" ++ issue.key
          text := "*" ++ f.summary ++ "*\n\n *Assignee* " ++ a.displayName ++
                  " *Priority* " ++ pr.name ++ " "
          color := getColor st.name
          markdownIn := ["text", "pretext"]
          iconURL := jiraIcon
          username := "Jira" })
    | _, _, _ => .panic nilDerefMsg

/-! ## The message processor -/

/-- `strings.TrimSpace`. -/
def trimSpace (s : List Char) : List Char :=
  ((s.dropWhile Char.isWhitespace).reverse.dropWhile Char.isWhitespace).reverse

/-- The body of `processEvents`' loop over the matches: for each captured
reference, `GetIssue` is called (the response for a requested key is given by
`resolver`); only when it returns no error is the card dispatched.  The
result collects the issue keys passed to `GetIssue` in order and the
dispatched cards; a panic in `GetIssue` or `sendMessage` crashes the
goroutine. -/
def runRefs (resolver : List Char → HttpResult (JsonBody IssueP))
    (hostURL : String) (channel : String) :
    List (List Char) → GoResult (List (List Char) × List (String × Attachment))
  | [] => .ok ([], [])
  | k :: rest =>
    match GetIssue (resolver k) with
    | .panic m => .panic m
    | .ok (.error _) =>
      match runRefs resolver hostURL channel rest with
      | .panic m => .panic m
      | .ok (ls, cards) => .ok (k :: ls, cards)
    | .ok (.ok issue) =>
      match sendMessage hostURL issue channel with
      | .panic m => .panic m
      | .ok card =>
        match runRefs resolver hostURL channel rest with
        | .panic m => .panic m
        | .ok (ls, cards) => .ok (k :: ls, card :: cards)

/-- `processEvents` (without the WaitGroup bookkeeping, treated separately):
`Pattern.FindAllStringSubmatch(text, -1)`, then for each `v` a lookup of
`strings.TrimSpace(v[1])` and, on success, a dispatch. -/
def processEvents (keys : List String)
    (resolver : List Char → HttpResult (JsonBody IssueP))
    (hostURL : String) (text : List Char) (channel : String) :
    GoResult (List (List Char) × List (String × Attachment)) :=
  runRefs resolver hostURL channel
    ((findAllList keys text).map (fun m => trimSpace m.capture))

/-! ## Startup (`main` before the event loop) -/

/-- What `main` has set up by the time it enters the event loop. -/
structure StartupState where
  projects : List Project
  patternSource : String
  serving : Bool
deriving DecidableEq, Repr

/-- `main`'s startup sequence around the project fetch:
`Client.GetProjects()` — the returned error is DISCARDED — then
`buildPattern()` and the RTM event loop start unconditionally.  On a
`GetProjects` error the global `Projects` keeps its initial value `[]`. -/
def mainStartup (resp : HttpResult (JsonBody (List Project))) :
    GoResult StartupState :=
  match GetProjects resp with
  | .panic m => .panic m
  | .ok res =>
    let ps := match res with
      | .ok ps => ps
      | .error _ => ([] : List Project)
    .ok { projects := ps, patternSource := buildPatternString ps, serving := true }

/-! ## The event loop and the WaitGroup (`main`'s select loop)

`processEvents(ev.Text, ev.Channel, wg)` passes the `sync.WaitGroup` BY
VALUE: the goroutine's deferred `wg.Done()` decrements a copy of the counter,
never `main`'s `wg`. -/

inductive SlackEvent where
  | message (text : String) (channel : String) (subType : String)
  | invalidAuth
  | otherEvent
deriving DecidableEq, Repr

/-- `main`'s WaitGroup counter together with the counter values copied into
each spawned `processEvents` goroutine. -/
structure LoopState where
  mainWg : Int
  unitCopies : List Int
deriving DecidableEq, Repr

/-- One event of the select loop: a non-bot message does `wg.Add(1)` and then
`go processEvents(…, wg)`, copying the incremented counter into the new
goroutine; every other event (except `invalidAuth`, handled by `runLoop`)
is ignored. -/
def loopStep (st : LoopState) : SlackEvent → LoopState
  | .message _ _ subType =>
    if subType ≠ "bot_message" then
      { mainWg := st.mainWg + 1, unitCopies := st.unitCopies ++ [st.mainWg + 1] }
    else st
  | _ => st

/-- The `Loop:` select loop, consuming events until `InvalidAuthEvent`
breaks it. -/
def runLoop : LoopState → List SlackEvent → LoopState
  | st, [] => st
  | st, .invalidAuth :: _ => st
  | st, e :: rest => runLoop (loopStep st e) rest

/-- The deferred `wg.Done()` a finished `processEvents` unit executes — on
its own copied counter. -/
def unitDone (copiedCounter : Int) : Int := copiedCounter - 1

/-- `wg.Wait()` returns exactly when the counter it observes is zero. -/
def waitReturns (counter : Int) : Prop := counter = 0

instance (n : Int) : Decidable (waitReturns n) := by
  unfold waitReturns; infer_instance

/-! ## Predicates used by the statements -/

/-- A well-formed project key as the spec's data model describes it (a short
identifier: nonempty, led by a letter, containing only word characters — in
particular no regex metacharacters, no hyphen, no whitespace). -/
def goodKey (kl : List Char) : Bool :=
  match kl with
  | [] => false
  | c :: t => c.isAlpha && t.all isWordChar

/-- The head of `l`, if any, is not a digit (a digit run ending here is
maximal). -/
def headNotDigit : List Char → Bool
  | [] => true
  | d :: _ => !d.isDigit

/-- An issue that `sendMessage` can render without a nil dereference. -/
def renderSafe (i : IssueP) : Bool :=
  match i.fields with
  | none => false
  | some f => f.assignee.isSome && f.priority.isSome && f.status.isSome

/-- The lookup on this response returns an error (no panic, no issue). -/
def lookupFails (r : HttpResult (JsonBody IssueP)) : Bool :=
  match GetIssue r with
  | .ok (.error _) => true
  | _ => false

/-- A response on which the resolution path is panic-free: the lookup either
fails cleanly or yields a renderable issue. -/
def benign (r : HttpResult (JsonBody IssueP)) : Bool :=
  match GetIssue r with
  | .panic _ => false
  | .ok (.error _) => true
  | .ok (.ok i) => renderSafe i

/-! ## Character-class facts -/

theorem isAlpha_not_digit (c : Char) (h : c.isAlpha = true) : c.isDigit = false := by
  simp [Char.isAlpha, Char.isUpper, Char.isLower, Char.isDigit, UInt32.le_def,
    BitVec.le_def, UInt32.toNat] at *
  omega

theorem isAlpha_word (c : Char) (h : c.isAlpha = true) : isWordChar c = true := by
  simp [isWordChar, Char.isAlphanum, h]

theorem isDigit_word (c : Char) (h : c.isDigit = true) : isWordChar c = true := by
  simp [isWordChar, Char.isAlphanum, h]

theorem isWordChar_not_whitespace (c : Char) (h : isWordChar c = true) :
    c.isWhitespace = false := by
  simp [isWordChar, Char.isAlphanum, Char.isAlpha, Char.isUpper, Char.isLower,
    Char.isDigit, Char.isWhitespace, UInt32.le_def, BitVec.le_def, Char.ext_iff,
    UInt32.ext_iff, UInt32.toNat] at *
  omega

theorem isWordChar_ne_hyphen (c : Char) (h : isWordChar c = true) : c ≠ '-' := by
  intro hc; subst hc; exact absurd h (by decide)

/-! ## Digit-run and token decomposition lemmas -/

theorem takeWhile_digits (ds post : List Char) (hds : ds.all Char.isDigit = true)
    (hpost : headNotDigit post = true) :
    (ds ++ post).takeWhile Char.isDigit = ds := by
  induction ds with
  | nil =>
    cases post with
    | nil => rfl
    | cons d t =>
      simp only [headNotDigit, Bool.not_eq_true'] at hpost
      simp [List.takeWhile_cons, hpost]
  | cons d t ih =>
    simp only [List.all_cons, Bool.and_eq_true] at hds
    simp [List.takeWhile_cons, hds.1, ih hds.2]

theorem dropWhile_digits (ds post : List Char) (hds : ds.all Char.isDigit = true)
    (hpost : headNotDigit post = true) :
    (ds ++ post).dropWhile Char.isDigit = post := by
  induction ds with
  | nil =>
    cases post with
    | nil => rfl
    | cons d t =>
      simp only [headNotDigit, Bool.not_eq_true'] at hpost
      simp [List.dropWhile_cons, hpost]
  | cons d t ih =>
    simp only [List.all_cons, Bool.and_eq_true] at hds
    simp [List.dropWhile_cons, hds.1, ih hds.2]

theorem all_takeWhile_digits (l : List Char) :
    (l.takeWhile Char.isDigit).all Char.isDigit = true := by
  induction l with
  | nil => rfl
  | cons d t ih =>
    by_cases h : d.isDigit
    · simp [List.takeWhile_cons, h, ih]
    · simp [List.takeWhile_cons, h]

theorem headNotDigit_dropWhile (l : List Char) :
    headNotDigit (l.dropWhile Char.isDigit) = true := by
  induction l with
  | nil => rfl
  | cons d t ih =>
    by_cases h : d.isDigit
    · simpa [List.dropWhile_cons, h] using ih
    · simp [List.dropWhile_cons, h, headNotDigit]

/-- Two decompositions of a list as (no-hyphen block) ++ '-' :: rest
coincide. -/
theorem append_hyphen_inj (X₁ Y₁ X₂ Y₂ : List Char)
    (h : X₁ ++ '-' :: Y₁ = X₂ ++ '-' :: Y₂)
    (h1 : '-' ∉ X₁) (h2 : '-' ∉ X₂) : X₁ = X₂ ∧ Y₁ = Y₂ := by
  induction X₁ generalizing X₂ with
  | nil =>
    cases X₂ with
    | nil => simpa using h
    | cons b t =>
      simp only [List.nil_append, List.cons_append, List.cons.injEq] at h
      exact absurd (show '-' ∈ b :: t by rw [h.1]; exact List.mem_cons_self b t) h2
  | cons a t ih =>
    cases X₂ with
    | nil =>
      simp only [List.nil_append, List.cons_append, List.cons.injEq] at h
      exact absurd (show '-' ∈ a :: t by rw [← h.1]; exact List.mem_cons_self a t) h1
    | cons b t₂ =>
      simp only [List.cons_append, List.cons.injEq] at h
      obtain ⟨hab, ht⟩ := h
      obtain ⟨hte, hye⟩ := ih t₂ ht (fun hm => h1 (List.mem_cons_of_mem a hm))
        (fun hm => h2 (hab ▸ List.mem_cons_of_mem b hm))
      exact ⟨by rw [hab, hte], hye⟩

/-- Two decompositions of a list as (maximal digit run) ++ rest coincide. -/
theorem digit_run_inj (ds₁ post₁ ds₂ post₂ : List Char)
    (h : ds₁ ++ post₁ = ds₂ ++ post₂)
    (hd1 : ds₁.all Char.isDigit = true) (hp1 : headNotDigit post₁ = true)
    (hd2 : ds₂.all Char.isDigit = true) (hp2 : headNotDigit post₂ = true) :
    ds₁ = ds₂ ∧ post₁ = post₂ := by
  have h1 : (ds₁ ++ post₁).takeWhile Char.isDigit = ds₁ := takeWhile_digits _ _ hd1 hp1
  have h2 : (ds₂ ++ post₂).takeWhile Char.isDigit = ds₂ := takeWhile_digits _ _ hd2 hp2
  have h3 : (ds₁ ++ post₁).dropWhile Char.isDigit = post₁ := dropWhile_digits _ _ hd1 hp1
  have h4 : (ds₂ ++ post₂).dropWhile Char.isDigit = post₂ := dropWhile_digits _ _ hd2 hp2
  rw [h] at h1 h3
  exact ⟨h1.symm.trans h2, h3.symm.trans h4⟩

/-! ## Forward and inversion lemmas for the group-1 matcher -/

theorem matchHyphenDigits_token (ds post : List Char) (hne : ds ≠ [])
    (hds : ds.all Char.isDigit = true) (hpost : headNotDigit post = true) :
    matchHyphenDigits ('-' :: (ds ++ post)) = some ('-' :: ds, post) := by
  simp only [matchHyphenDigits, takeWhile_digits ds post hds hpost,
    dropWhile_digits ds post hds hpost, if_neg hne]

theorem matchHyphenDigits_inv (cs : List Char) (pr rest : List Char)
    (h : matchHyphenDigits cs = some (pr, rest)) :
    ∃ ds, pr = '-' :: ds ∧ ds ≠ [] ∧ ds.all Char.isDigit = true ∧
      cs = pr ++ rest ∧ headNotDigit rest = true := by
  match cs with
  | [] => simp [matchHyphenDigits] at h
  | c :: t =>
    by_cases hc : c = '-'
    · subst hc
      simp only [matchHyphenDigits] at h
      split at h
      · exact absurd h (by simp)
      · rename_i hne
        obtain ⟨hpr, hrest⟩ := by simpa using h
        refine ⟨t.takeWhile Char.isDigit, hpr.symm, hne, all_takeWhile_digits t, ?_, ?_⟩
        · rw [← hpr, ← hrest]
          simp [List.takeWhile_append_dropWhile]
        · rw [← hrest]; exact headNotDigit_dropWhile t
    · unfold matchHyphenDigits at h
      split at h
      · rename_i x r heq
        exact absurd heq (by simp [hc])
      · exact absurd h (by simp)

theorem tryKeyAlt_token (alt ds post : List Char) (hne : ds ≠ [])
    (hds : ds.all Char.isDigit = true) (hpost : headNotDigit post = true) :
    tryKeyAlt alt (alt ++ '-' :: (ds ++ post)) = some (alt ++ '-' :: ds, post) := by
  unfold tryKeyAlt
  rw [if_pos (List.isPrefixOf_iff_prefix.mpr ⟨'-' :: (ds ++ post), rfl⟩), List.drop_left,
    matchHyphenDigits_token ds post hne hds hpost]

theorem tryKeyAlt_inv (alt cs g rest : List Char)
    (h : tryKeyAlt alt cs = some (g, rest)) :
    ∃ ds, g = alt ++ '-' :: ds ∧ ds ≠ [] ∧ ds.all Char.isDigit = true ∧
      cs = g ++ rest ∧ headNotDigit rest = true := by
  unfold tryKeyAlt at h
  split at h
  · rename_i hp
    obtain ⟨tail, htail⟩ := List.isPrefixOf_iff_prefix.mp hp
    have hdrop : cs.drop alt.length = tail := by rw [← htail, List.drop_left]
    rw [hdrop] at h
    cases hm : matchHyphenDigits tail with
    | none => rw [hm] at h; exact absurd h (by simp)
    | some v =>
      obtain ⟨pr, rest'⟩ := v
      rw [hm] at h
      obtain ⟨hg, hrest⟩ := by simpa using h
      obtain ⟨ds, hpr, hdsne, hdsall, htl, hhead⟩ := matchHyphenDigits_inv tail pr rest' hm
      refine ⟨ds, by rw [← hg, hpr], hdsne, hdsall, ?_, by rw [← hrest]; exact hhead⟩
      rw [← htail, htl, ← hg, hpr, hrest, List.append_assoc]
  · exact absurd h (by simp)

theorem matchGroup1Alts_inv (alts : List (List Char)) (cs : List Char)
    (r : List Char × List Char) (h : matchGroup1Alts alts cs = some r) :
    ∃ a ∈ alts, tryKeyAlt a cs = some r := by
  induction alts with
  | nil => simp [matchGroup1Alts] at h
  | cons a as ih =>
    simp only [matchGroup1Alts] at h
    cases ht : tryKeyAlt a cs with
    | none => rw [ht] at h; obtain ⟨b, hb, hbt⟩ := ih h; exact ⟨b, List.mem_cons_of_mem a hb, hbt⟩
    | some v => rw [ht] at h; exact ⟨a, List.mem_cons_self a as, by rw [ht]; exact h⟩

theorem matchGroup1Alts_of_uniq (alts : List (List Char)) (cs : List Char)
    (r : List Char × List Char)
    (hex : ∃ a ∈ alts, tryKeyAlt a cs = some r)
    (huniq : ∀ a ∈ alts, ∀ r', tryKeyAlt a cs = some r' → r' = r) :
    matchGroup1Alts alts cs = some r := by
  induction alts with
  | nil => obtain ⟨a, ha, _⟩ := hex; exact absurd ha (List.not_mem_nil a)
  | cons a as ih =>
    simp only [matchGroup1Alts]
    cases ht : tryKeyAlt a cs with
    | none =>
      obtain ⟨b, hb, hbt⟩ := hex
      rcases List.mem_cons.mp hb with hba | hbas
      · rw [hba] at hbt; rw [hbt] at ht; exact absurd ht (by simp)
      · exact ih ⟨b, hbas, hbt⟩ (fun x hx => huniq x (List.mem_cons_of_mem a hx))
    | some v =>
      rw [huniq a (List.mem_cons_self a as) v ht]

/-! ## goodKey facts -/

theorem goodKey_all_word (kl : List Char) (h : goodKey kl = true) :
    ∀ c ∈ kl, isWordChar c = true := by
  match kl with
  | [] => simp [goodKey] at h
  | c :: t =>
    simp only [goodKey, Bool.and_eq_true] at h
    intro x hx
    rcases List.mem_cons.mp hx with hxc | hxt
    · rw [hxc]; exact isAlpha_word c h.1
    · exact (List.all_eq_true.mp h.2) x hxt

theorem goodKey_head_alpha (kl : List Char) (h : goodKey kl = true) :
    ∃ c t, kl = c :: t ∧ c.isAlpha = true := by
  match kl with
  | [] => simp [goodKey] at h
  | c :: t =>
    simp only [goodKey, Bool.and_eq_true] at h
    exact ⟨c, t, rfl, h.1⟩

theorem goodKey_no_hyphen (kl : List Char) (h : goodKey kl = true) : '-' ∉ kl :=
  fun hm => isWordChar_ne_hyphen '-' (goodKey_all_word kl h '-' hm) rfl

/-! ## Uniqueness: the only alternative that can match at a well-formed token
is the token's own key, capturing the token itself -/

theorem tryKeyAlt_token_uniq (keys : List String) (kl ds post : List Char)
    (hgood : ∀ k ∈ keys, goodKey k.toList = true)
    (hklg : goodKey kl = true)
    (hne : ds ≠ []) (hds : ds.all Char.isDigit = true) (hpost : headNotDigit post = true)
    (a : List Char) (ha : a ∈ keys.map String.toList ++ [[]])
    (r : List Char × List Char)
    (h : tryKeyAlt a (kl ++ '-' :: (ds ++ post)) = some r) :
    r = (kl ++ '-' :: ds, post) := by
  obtain ⟨g, rest⟩ := r
  obtain ⟨ds', hg, hdsne', hdsall', hcs, hhead'⟩ := tryKeyAlt_inv a _ g rest h
  rw [hg, List.append_assoc] at hcs
  simp only [List.cons_append] at hcs
  rcases List.mem_append.mp ha with hmap | hnil
  · have hag : goodKey a = true := by
      obtain ⟨k, hkmem, hke⟩ := List.mem_map.mp hmap
      rw [← hke]; exact hgood k hkmem
    obtain ⟨hkla, hrest⟩ := append_hyphen_inj kl (ds ++ post) a (ds' ++ rest) hcs
      (goodKey_no_hyphen kl hklg) (goodKey_no_hyphen a hag)
    obtain ⟨hds', hpost'⟩ :=
      digit_run_inj ds post ds' rest hrest hds hpost hdsall' hhead'
    rw [hg, ← hkla, ← hds', hpost']
  · have ha0 : a = [] := by simpa using hnil
    obtain ⟨c0, t0, hkl0, halpha⟩ := goodKey_head_alpha kl hklg
    rw [ha0, List.nil_append, hkl0] at hcs
    simp only [List.cons_append, List.cons.injEq] at hcs
    exact absurd (by rw [hcs.1] at halpha; exact halpha) (by decide)

theorem matchGroup1_token (keys : List String) (kl ds post : List Char)
    (hgood : ∀ k ∈ keys, goodKey k.toList = true)
    (hk : kl ∈ keys.map String.toList)
    (hne : ds ≠ []) (hds : ds.all Char.isDigit = true) (hpost : headNotDigit post = true) :
    matchGroup1 keys (kl ++ '-' :: (ds ++ post)) = some (kl ++ '-' :: ds, post) := by
  have hklg : goodKey kl = true := by
    obtain ⟨k, hkmem, hke⟩ := List.mem_map.mp hk
    rw [← hke]; exact hgood k hkmem
  exact matchGroup1Alts_of_uniq _ _ _
    ⟨kl, List.mem_append_left _ hk, tryKeyAlt_token kl ds post hne hds hpost⟩
    (fun a ha r' h' => tryKeyAlt_token_uniq keys kl ds post hgood hklg hne hds hpost a ha r' h')

/-! ## matchAlt1At at a well-formed token -/

theorem matchAlt1At_token_mid (keys : List String) (pre : List Char) (c : Char)
    (kl ds post : List Char)
    (hgood : ∀ k ∈ keys, goodKey k.toList = true)
    (hk : kl ∈ keys.map String.toList)
    (hc : isWordChar c = false)
    (hne : ds ≠ []) (hds : ds.all Char.isDigit = true) (hpost : headNotDigit post = true) :
    matchAlt1At keys (pre ++ c :: (kl ++ '-' :: (ds ++ post))) pre.length
      = some (kl ++ '-' :: ds, pre.length + 1,
          pre.length + 1 + (kl ++ '-' :: ds).length + plusLen post) := by
  have hdrop1 : (pre ++ c :: (kl ++ '-' :: (ds ++ post))).drop pre.length
      = c :: (kl ++ '-' :: (ds ++ post)) := List.drop_left pre _
  have hdrop2 : (pre ++ c :: (kl ++ '-' :: (ds ++ post))).drop (pre.length + 1)
      = kl ++ '-' :: (ds ++ post) := by
    have hsplit : pre ++ c :: (kl ++ '-' :: (ds ++ post))
        = (pre ++ [c]) ++ (kl ++ '-' :: (ds ++ post)) := by simp
    have hlen : pre.length + 1 = (pre ++ [c]).length := by simp
    rw [hsplit, hlen, List.drop_left]
  have hatt : alt1Attempt keys (pre ++ c :: (kl ++ '-' :: (ds ++ post))) (pre.length + 1)
      = some (kl ++ '-' :: ds, pre.length + 1,
          pre.length + 1 + (kl ++ '-' :: ds).length + plusLen post) := by
    unfold alt1Attempt
    rw [hdrop2, matchGroup1_token keys kl ds post hgood hk hne hds hpost]
  unfold matchAlt1At
  rw [hdrop1]
  simp only [hc, Bool.false_eq_true, if_false, hatt]

theorem matchAlt1At_token_start (keys : List String) (kl ds post : List Char)
    (hgood : ∀ k ∈ keys, goodKey k.toList = true)
    (hk : kl ∈ keys.map String.toList)
    (hne : ds ≠ []) (hds : ds.all Char.isDigit = true) (hpost : headNotDigit post = true) :
    matchAlt1At keys (kl ++ '-' :: (ds ++ post)) 0
      = some (kl ++ '-' :: ds, 0, 0 + (kl ++ '-' :: ds).length + plusLen post) := by
  have hklg : goodKey kl = true := by
    obtain ⟨k, hkmem, hke⟩ := List.mem_map.mp hk
    rw [← hke]; exact hgood k hkmem
  obtain ⟨c0, t0, hkl0, halpha⟩ := goodKey_head_alpha kl hklg
  have hword : isWordChar c0 = true := isAlpha_word c0 halpha
  have hatt : alt1Attempt keys (kl ++ '-' :: (ds ++ post)) 0
      = some (kl ++ '-' :: ds, 0, 0 + (kl ++ '-' :: ds).length + plusLen post) := by
    unfold alt1Attempt
    rw [List.drop_zero, matchGroup1_token keys kl ds post hgood hk hne hds hpost]
  have hs : kl ++ '-' :: (ds ++ post) = c0 :: (t0 ++ '-' :: (ds ++ post)) := by
    rw [hkl0]; simp
  unfold matchAlt1At
  rw [List.drop_zero]
  conv in (kl ++ '-' :: (ds ++ post)) => rw [hs]
  simp only [hword, if_true, if_pos rfl]
  exact hatt

/-! ## Inversion for matchAlt1At -/

theorem alt1Attempt_inv (keys : List String) (s : List Char) (start : Nat)
    (g : List Char) (cs e : Nat)
    (h : alt1Attempt keys s start = some (g, cs, e)) :
    cs = start ∧ ∃ a dsx rest, (a ∈ keys.map String.toList ∨ a = []) ∧
      g = a ++ '-' :: dsx ∧ dsx ≠ [] ∧ dsx.all Char.isDigit = true ∧
      s.drop start = g ++ rest ∧ headNotDigit rest = true ∧
      e = start + g.length + plusLen rest := by
  unfold alt1Attempt at h
  cases hm : matchGroup1 keys (s.drop start) with
  | none => rw [hm] at h; exact absurd h (by simp)
  | some v =>
    obtain ⟨g', rest⟩ := v
    rw [hm] at h
    obtain ⟨hg, hcs, he⟩ : g' = g ∧ start = cs ∧ start + g'.length + plusLen rest = e := by
      simpa using h
    unfold matchGroup1 at hm
    obtain ⟨a, ha, hta⟩ := matchGroup1Alts_inv _ _ _ hm
    obtain ⟨dsx, hgx, hdsne, hdsall, hcseq, hhead⟩ := tryKeyAlt_inv a _ g' rest hta
    refine ⟨hcs.symm, a, dsx, rest, ?_, by rw [← hg, hgx], hdsne, hdsall,
      by rw [hcseq, hg], hhead, by rw [← he, hg]⟩
    rcases List.mem_append.mp ha with hmap | hnil
    · exact Or.inl hmap
    · exact Or.inr (by simpa using hnil)

theorem matchAlt1At_inv (keys : List String) (s : List Char) (i : Nat)
    (g : List Char) (cs e : Nat)
    (h : matchAlt1At keys s i = some (g, cs, e)) :
    (∃ a dsx rest, (a ∈ keys.map String.toList ∨ a = []) ∧
      g = a ++ '-' :: dsx ∧ dsx ≠ [] ∧ dsx.all Char.isDigit = true ∧
      s.drop cs = g ++ rest ∧ headNotDigit rest = true ∧
      e = cs + g.length + plusLen rest) ∧
    ((cs = i + 1 ∧ ∃ c tl, s.drop i = c :: tl ∧ isWordChar c = false) ∨
     (cs = i ∧ i = 0)) := by
  unfold matchAlt1At at h
  cases hdrop : s.drop i with
  | nil =>
    simp only [hdrop] at h
    split at h
    · rename_i h0
      obtain ⟨hcs, rest⟩ := alt1Attempt_inv keys s 0 g cs e h
      exact ⟨by rw [hcs]; exact rest, Or.inr ⟨by omega, h0⟩⟩
    · exact absurd h (by simp)
  | cons c tl =>
    simp only [hdrop] at h
    by_cases hw : isWordChar c
    · rw [if_pos hw] at h
      split at h
      · rename_i h0
        obtain ⟨hcs, rest⟩ := alt1Attempt_inv keys s 0 g cs e h
        exact ⟨by rw [hcs]; exact rest, Or.inr ⟨by omega, h0⟩⟩
      · exact absurd h (by simp)
    · rw [if_neg hw] at h
      cases hatt : alt1Attempt keys s (i + 1) with
      | some r =>
        simp only [hatt] at h
        obtain ⟨g', cs', e'⟩ := r
        have hr : g' = g ∧ cs' = cs ∧ e' = e := by simpa using h
        obtain ⟨rfl, rfl, rfl⟩ := hr
        obtain ⟨hcs, rest⟩ := alt1Attempt_inv keys s (i + 1) _ _ _ hatt
        exact ⟨by rw [hcs]; exact rest,
          Or.inl ⟨hcs, c, tl, rfl, by simpa using hw⟩⟩
      | none =>
        simp only [hatt] at h
        split at h
        · rename_i h0
          obtain ⟨hcs, rest⟩ := alt1Attempt_inv keys s 0 g cs e h
          exact ⟨by rw [hcs]; exact rest, Or.inr ⟨by omega, h0⟩⟩
        · exact absurd h (by simp)

/-! ## Bounds and end-of-text behaviour -/

theorem plusLen_le (l : List Char) : plusLen l ≤ l.length := by
  match l with
  | [] => simp [plusLen]
  | c :: t =>
    simp only [plusLen, List.length_cons]
    split <;> omega

theorem matchAlt1At_bounds (keys : List String) (s : List Char) (i : Nat)
    (g : List Char) (cs e : Nat)
    (h : matchAlt1At keys s i = some (g, cs, e)) :
    i ≤ cs ∧ cs ≤ i + 1 ∧ cs + 2 ≤ e ∧ e ≤ s.length ∧ g ≠ [] := by
  obtain ⟨⟨a, dsx, rest, ha, hg, hdsne, hdsall, hdropcs, hhead, he⟩, hpos⟩ :=
    matchAlt1At_inv keys s i g cs e h
  have hglen : 2 ≤ g.length := by
    rw [hg]
    have : 1 ≤ dsx.length := List.length_pos.mpr hdsne
    simp only [List.length_append, List.length_cons]
    omega
  have hgne : g ≠ [] := by
    intro hgnil; rw [hgnil] at hglen; simp at hglen
  have hcslen : cs < s.length := by
    by_contra hcs
    have : s.drop cs = [] := List.drop_eq_nil_of_le (by omega)
    rw [this] at hdropcs
    exact hgne (by cases g with
      | nil => rfl
      | cons x t => simp at hdropcs)
  have hlendrop : (s.drop cs).length = s.length - cs := List.length_drop cs s
  rw [hdropcs] at hlendrop
  simp only [List.length_append] at hlendrop
  have hple := plusLen_le rest
  constructor
  · rcases hpos with ⟨hcs1, _⟩ | ⟨hcs0, _⟩ <;> omega
  constructor
  · rcases hpos with ⟨hcs1, _⟩ | ⟨hcs0, hi0⟩ <;> omega
  exact ⟨by omega, by omega, hgne⟩

theorem tryKeyAlt_nil (a : List Char) : tryKeyAlt a [] = none := by
  match a with
  | [] => rfl
  | x :: t => rfl

theorem matchGroup1_nil_input (keys : List String) : matchGroup1 keys [] = none := by
  unfold matchGroup1
  generalize keys.map String.toList ++ [[]] = alts
  induction alts with
  | nil => rfl
  | cons a as ih => simp only [matchGroup1Alts, tryKeyAlt_nil, ih]

/-- At or after the end of the text the first alternative never matches
(`\W` needs a character; `^` only applies at position 0 and then still needs
a `-digits` tail that the empty remainder cannot provide). -/
theorem matchAlt1At_ge (keys : List String) (s : List Char) (i : Nat)
    (hi : s.length ≤ i) : matchAlt1At keys s i = none := by
  have hdrop : s.drop i = [] := List.drop_eq_nil_of_le hi
  unfold matchAlt1At
  rw [hdrop]
  by_cases h0 : i = 0
  · rw [if_pos h0]
    have hs : s = [] := by
      cases s with
      | nil => rfl
      | cons x t => subst h0; simp at hi
    unfold alt1Attempt
    rw [hs]
    simp [matchGroup1_nil_input]
  · rw [if_neg h0]

/-! ## findFrom: characterization of the leftmost match -/

theorem findFrom_gt (keys : List String) (s : List Char) (fuel i : Nat)
    (hi : s.length < i) : findFrom keys s fuel i = none := by
  cases fuel with
  | zero => rfl
  | succ n => simp only [findFrom, if_pos hi]

/-- Soundness of `findFrom`: a returned match is an alt-1 match at its start
position (or the `$` match at end of text), every earlier position from `i`
on having failed. -/
theorem findFrom_inv (keys : List String) (s : List Char) :
    ∀ fuel i m, findFrom keys s fuel i = some m →
      i ≤ m.mStart ∧ m.mStart ≤ s.length ∧
      (∀ j, i ≤ j → j < m.mStart → matchAlt1At keys s j = none) ∧
      (matchAlt1At keys s m.mStart = some (m.capture, m.capStart, m.mEnd) ∨
       (m = ⟨[], s.length, s.length, s.length⟩ ∧ m.mStart = s.length)) := by
  intro fuel
  induction fuel with
  | zero => intro i m h; exact absurd h (by simp [findFrom])
  | succ n ih =>
    intro i m h
    simp only [findFrom] at h
    split at h
    · exact absurd h (by simp)
    · rename_i hile
      split at h
      · rename_i g cs e hm
        obtain rfl : MatchResult.mk g i cs e = m := by simpa using h
        exact ⟨le_refl i, show i ≤ s.length by omega,
          fun j h1 (h2 : j < i) => by omega, Or.inl hm⟩
      · rename_i hm
        split at h
        · rename_i hieq
          obtain rfl : MatchResult.mk [] s.length s.length s.length = m := by simpa using h
          refine ⟨by simp; omega, by simp, fun j h1 h2 => ?_, Or.inr ⟨rfl, by simp⟩⟩
          simp only at h2
          have : j = i := by omega
          rw [this, ← hieq] at *
          exact hm
        · rename_i hine
          obtain ⟨h1, h2, h3, h4⟩ := ih (i + 1) m h
          refine ⟨by omega, h2, fun j hj1 hj2 => ?_, h4⟩
          by_cases hji : j = i
          · rw [hji]; exact hm
          · exact h3 j (by omega) hj2

/-- Completeness of the scan: if some position `p ≥ i` has an alt-1 match,
`findFrom` returns a match starting at or before `p`. -/
theorem findFrom_found (keys : List String) (s : List Char) :
    ∀ fuel i p r, i ≤ p → matchAlt1At keys s p = some r →
      s.length + 1 - i ≤ fuel →
      ∃ m, findFrom keys s fuel i = some m ∧ m.mStart ≤ p := by
  intro fuel
  induction fuel with
  | zero =>
    intro i p r hip hm hfuel
    have hplen : p < s.length := by
      by_contra hc
      rw [matchAlt1At_ge keys s p (by omega)] at hm
      exact absurd hm (by simp)
    omega
  | succ n ih =>
    intro i p r hip hm hfuel
    have hplen : p < s.length := by
      by_contra hc
      rw [matchAlt1At_ge keys s p (by omega)] at hm
      exact absurd hm (by simp)
    simp only [findFrom]
    rw [if_neg (by omega)]
    cases hmi : matchAlt1At keys s i with
    | some v =>
      obtain ⟨g, cs, e⟩ := v
      exact ⟨⟨g, i, cs, e⟩, rfl, by simpa using hip⟩
    | none =>
      have hine : ¬ i = s.length := by
        intro hieq
        rw [hieq] at hip
        omega
      rw [if_neg hine]
      by_cases hpi : p = i
      · rw [hpi] at hm; rw [hm] at hmi; exact absurd hmi (by simp)
      · obtain ⟨m, hfind, hms⟩ := ih (i + 1) p r (by omega) hm (by omega)
        exact ⟨m, hfind, hms⟩

/-- Totality: from any position not past the end, `findFrom` finds a match
(at worst the `$` match). -/
theorem findFrom_total (keys : List String) (s : List Char) :
    ∀ fuel i, i ≤ s.length → s.length + 1 - i ≤ fuel →
      ∃ m, findFrom keys s fuel i = some m := by
  intro fuel
  induction fuel with
  | zero => intro i hi hfuel; omega
  | succ n ih =>
    intro i hi hfuel
    simp only [findFrom]
    rw [if_neg (by omega)]
    cases hmi : matchAlt1At keys s i with
    | some v => obtain ⟨g, cs, e⟩ := v; exact ⟨⟨g, i, cs, e⟩, rfl⟩
    | none =>
      by_cases hieq : i = s.length
      · rw [if_pos hieq]; exact ⟨⟨[], s.length, s.length, s.length⟩, rfl⟩
      · rw [if_neg hieq]
        exact ih (i + 1) (by omega) (by omega)

theorem plusLen_le_one (l : List Char) : plusLen l ≤ 1 := by
  match l with
  | [] => simp [plusLen]
  | x :: t =>
    simp only [plusLen]
    split <;> simp

theorem plusLen_eq_one (l : List Char) (h : plusLen l = 1) : ∃ t, l = '+' :: t := by
  match l with
  | [] => simp [plusLen] at h
  | x :: t =>
    simp only [plusLen] at h
    split at h
    · rename_i hx
      exact ⟨t, by rw [hx]⟩
    · exact absurd h (by simp)

/-- No alt-1 match that starts strictly before a well-formed token's
anchoring non-word character can extend past that character (given the
anchor is not `+`): its interior consists of word characters, one hyphen
followed by a digit, and an optional final `+`. -/
theorem match_no_overlap (keys : List String) (pre : List Char) (c : Char)
    (kl ds post : List Char)
    (hgood : ∀ k ∈ keys, goodKey k.toList = true)
    (hk : kl ∈ keys.map String.toList)
    (hc : isWordChar c = false) (hcp : c ≠ '+')
    (j : Nat) (hj : j < pre.length)
    (g : List Char) (cs e : Nat)
    (h : matchAlt1At keys (pre ++ c :: (kl ++ '-' :: (ds ++ post))) j = some (g, cs, e)) :
    e ≤ pre.length := by
  obtain ⟨⟨a, dsx, rest, ha, hg, hdsne, hdsall, hdropcs, hhead, he⟩, hpos⟩ :=
    matchAlt1At_inv keys (pre ++ c :: (kl ++ '-' :: (ds ++ post))) j g cs e h
  by_contra hcon
  push_neg at hcon
  have hcsle : cs ≤ pre.length := by
    rcases hpos with ⟨h1, _⟩ | ⟨h1, h2⟩ <;> omega
  have haword : ∀ x ∈ a, isWordChar x = true := by
    rcases ha with hmap | rfl
    · obtain ⟨k, hkm, hke⟩ := List.mem_map.mp hmap
      exact fun x hx => goodKey_all_word _ (by rw [← hke]; exact hgood k hkm) x hx
    · intro x hx; exact absurd hx (List.not_mem_nil x)
  have hklg : goodKey kl = true := by
    obtain ⟨k, hkm, hke⟩ := List.mem_map.mp hk
    rw [← hke]; exact hgood k hkm
  obtain ⟨c0, t0, hkl0, halpha⟩ := goodKey_head_alpha kl hklg
  have hatC : (pre ++ c :: (kl ++ '-' :: (ds ++ post)))[pre.length]? = some c := by
    rw [← List.head?_drop, List.drop_left]; rfl
  have hatC1 : (pre ++ c :: (kl ++ '-' :: (ds ++ post)))[pre.length + 1]? = some c0 := by
    rw [← List.head?_drop]
    have hsplit : pre ++ c :: (kl ++ '-' :: (ds ++ post))
        = (pre ++ [c]) ++ (kl ++ '-' :: (ds ++ post)) := by simp
    have hlen : pre.length + 1 = (pre ++ [c]).length := by simp
    rw [hsplit, hlen, List.drop_left, hkl0]; rfl
  have hslice : ∀ dd : Nat, (pre ++ c :: (kl ++ '-' :: (ds ++ post)))[cs + dd]?
      = (g ++ rest)[dd]? := by
    intro dd
    rw [← List.head?_drop, ← List.head?_drop, ← hdropcs, List.drop_drop]
  have hga : g ++ rest = a ++ '-' :: (dsx ++ rest) := by rw [hg]; simp
  have hglen : g.length = a.length + 1 + dsx.length := by rw [hg]; simp; omega
  have hd0 : some c = (g ++ rest)[pre.length - cs]? := by
    rw [← hslice (pre.length - cs),
      show cs + (pre.length - cs) = pre.length from by omega]
    exact hatC.symm
  have hple := plusLen_le_one rest
  have hdlt : pre.length - cs < g.length + plusLen rest := by omega
  rcases lt_trichotomy (pre.length - cs) a.length with hda | hda | hda
  · -- anchor would sit inside the key alternative: a word character
    rw [hga, List.getElem?_append, if_pos hda, List.getElem?_eq_getElem hda] at hd0
    have hcmem : c ∈ a := by
      have := Option.some.inj hd0
      rw [this]; exact List.getElem_mem hda
    rw [haword c hcmem] at hc
    exact absurd hc (by simp)
  · -- anchor would be the match's hyphen: then the next character is a
    -- digit, but it is the token key's leading letter
    have hminus : (g ++ rest)[pre.length - cs]? = some '-' := by
      rw [hga, List.getElem?_append, if_neg (by omega), hda, Nat.sub_self]
      simp
    rw [hminus] at hd0
    obtain ⟨dx0, dxt, hdsx0⟩ : ∃ x t, dsx = x :: t := by
      cases dsx with
      | nil => exact absurd rfl hdsne
      | cons x t => exact ⟨x, t, rfl⟩
    have hnext : some c0 = (g ++ rest)[(pre.length - cs) + 1]? := by
      rw [← hslice ((pre.length - cs) + 1),
        show cs + ((pre.length - cs) + 1) = pre.length + 1 from by omega]
      exact hatC1.symm
    have hdig : (g ++ rest)[(pre.length - cs) + 1]? = some dx0 := by
      rw [hga, List.getElem?_append, if_neg (by omega), hda]
      have h1 : a.length + 1 - a.length = 1 := by omega
      rw [h1, List.getElem?_cons_succ, hdsx0]
      simp
    rw [hdig] at hnext
    have hc0 : c0 = dx0 := Option.some.inj hnext
    have hdx0dig : dx0.isDigit = true := by
      have : dx0 ∈ dsx := by rw [hdsx0]; exact List.mem_cons_self dx0 dxt
      exact (List.all_eq_true.mp hdsall) dx0 this
    rw [← hc0] at hdx0dig
    rw [isAlpha_not_digit c0 halpha] at hdx0dig
    exact absurd hdx0dig (by simp)
  · by_cases hdg : pre.length - cs < g.length
    · -- anchor would sit inside the digit run: a word character
      have hstep : (g ++ rest)[pre.length - cs]? = dsx[(pre.length - cs) - a.length - 1]? := by
        rw [hga, List.getElem?_append, if_neg (by omega),
          show (pre.length - cs) - a.length = ((pre.length - cs) - a.length - 1) + 1 from
            by omega,
          List.getElem?_cons_succ, List.getElem?_append, if_pos (by omega)]
        congr 1
      rw [hstep] at hd0
      have hlt : (pre.length - cs) - a.length - 1 < dsx.length := by omega
      rw [List.getElem?_eq_getElem hlt] at hd0
      have hcmem : c ∈ dsx := by
        have := Option.some.inj hd0
        rw [this]; exact List.getElem_mem hlt
      have : c.isDigit = true := (List.all_eq_true.mp hdsall) c hcmem
      rw [isDigit_word c this] at hc
      exact absurd hc (by simp)
    · -- anchor would be the consumed trailing plus: but c ≠ '+'
      have hdeq : pre.length - cs = g.length := by omega
      have hpl : plusLen rest = 1 := by omega
      obtain ⟨tr, hrest⟩ := plusLen_eq_one rest hpl
      have hplus : (g ++ rest)[pre.length - cs]? = some '+' := by
        rw [List.getElem?_append, if_neg (by omega), hdeq, Nat.sub_self, hrest]
        simp
      rw [hplus] at hd0
      exact absurd (Option.some.inj hd0) hcp

/-- The scan delivers the capture of a token anchored at a non-`+` non-word
character: matches starting earlier cannot cross the anchor, so the scan
reaches it and the token's own match is delivered. -/
theorem findAllFrom_token (keys : List String) (pre : List Char) (c : Char)
    (kl ds post : List Char)
    (hgood : ∀ k ∈ keys, goodKey k.toList = true)
    (hk : kl ∈ keys.map String.toList)
    (hc : isWordChar c = false) (hcp : c ≠ '+')
    (hne : ds ≠ []) (hds : ds.all Char.isDigit = true) (hpost : headNotDigit post = true) :
    ∀ fuel i prevEnd, i ≤ pre.length →
      (pre ++ c :: (kl ++ '-' :: (ds ++ post))).length + 2 - i ≤ fuel →
      (kl ++ '-' :: ds) ∈
        (findAllFrom keys (pre ++ c :: (kl ++ '-' :: (ds ++ post))) fuel i prevEnd).map
          MatchResult.capture := by
  have htok := matchAlt1At_token_mid keys pre c kl ds post hgood hk hc hne hds hpost
  have hcPoslt : pre.length < (pre ++ c :: (kl ++ '-' :: (ds ++ post))).length := by
    simp only [List.length_append, List.length_cons]
    omega
  intro fuel
  induction fuel with
  | zero =>
    intro i prevEnd hi hfuel
    omega
  | succ n ih =>
    intro i prevEnd hi hfuel
    obtain ⟨m, hfind, hmle⟩ :=
      findFrom_found keys (pre ++ c :: (kl ++ '-' :: (ds ++ post)))
        ((pre ++ c :: (kl ++ '-' :: (ds ++ post))).length + 1) i pre.length _ hi htok
        (by omega)
    obtain ⟨h1, h2, h3, h4⟩ :=
      findFrom_inv keys (pre ++ c :: (kl ++ '-' :: (ds ++ post)))
        ((pre ++ c :: (kl ++ '-' :: (ds ++ post))).length + 1) i m hfind
    simp only [findAllFrom, hfind]
    rcases h4 with halt | ⟨hmE, hms⟩
    · have hgne : m.capture ≠ [] :=
        (matchAlt1At_bounds _ _ _ _ _ _ halt).2.2.2.2
      rw [if_neg hgne]
      by_cases hstart : m.mStart = pre.length
      · have hinj : (kl ++ '-' :: ds, pre.length + 1,
            pre.length + 1 + (kl ++ '-' :: ds).length + plusLen post)
            = (m.capture, m.capStart, m.mEnd) := by
          apply Option.some.inj
          rw [← htok, ← halt, hstart]
        have hcap : kl ++ '-' :: ds = m.capture := congrArg Prod.fst hinj
        simp only [List.map_cons]
        exact List.mem_cons.mpr (Or.inl hcap)
      · have hlt : m.mStart < pre.length := by omega
        have hoverlap : m.mEnd ≤ pre.length :=
          match_no_overlap keys pre c kl ds post hgood hk hc hcp m.mStart hlt
            m.capture m.capStart m.mEnd halt
        have hbounds := matchAlt1At_bounds _ _ _ _ _ _ halt
        simp only [List.map_cons]
        refine List.mem_cons.mpr (Or.inr ?_)
        exact ih m.mEnd m.mEnd (by omega) (by omega)
    · exfalso
      have : matchAlt1At keys (pre ++ c :: (kl ++ '-' :: (ds ++ post))) pre.length
          = none := by
        apply h3
        · exact hi
        · omega
      rw [this] at htok
      exact absurd htok (by simp)

/-- The scan delivers the capture of a token at the very start of the
text. -/
theorem findAllList_token_start (keys : List String) (kl ds post : List Char)
    (hgood : ∀ k ∈ keys, goodKey k.toList = true)
    (hk : kl ∈ keys.map String.toList)
    (hne : ds ≠ []) (hds : ds.all Char.isDigit = true) (hpost : headNotDigit post = true) :
    (kl ++ '-' :: ds) ∈
      (findAllList keys (kl ++ '-' :: (ds ++ post))).map MatchResult.capture := by
  have htok := matchAlt1At_token_start keys kl ds post hgood hk hne hds hpost
  obtain ⟨m, hfind, hmle⟩ :=
    findFrom_found keys (kl ++ '-' :: (ds ++ post))
      ((kl ++ '-' :: (ds ++ post)).length + 1) 0 0 _ (le_refl 0) htok (by omega)
  obtain ⟨h1, h2, h3, h4⟩ :=
    findFrom_inv keys (kl ++ '-' :: (ds ++ post))
      ((kl ++ '-' :: (ds ++ post)).length + 1) 0 m hfind
  have hm0 : m.mStart = 0 := by omega
  have hlenpos : 0 < (kl ++ '-' :: (ds ++ post)).length := by
    simp only [List.length_append, List.length_cons]
    omega
  unfold findAllList
  rw [show (kl ++ '-' :: (ds ++ post)).length + 2
      = ((kl ++ '-' :: (ds ++ post)).length + 1) + 1 from rfl]
  simp only [findAllFrom, hfind]
  rcases h4 with halt | ⟨hmE, hms⟩
  · have hgne : m.capture ≠ [] :=
      (matchAlt1At_bounds _ _ _ _ _ _ halt).2.2.2.2
    rw [if_neg hgne]
    have hinj : (kl ++ '-' :: ds, 0, 0 + (kl ++ '-' :: ds).length + plusLen post)
        = (m.capture, m.capStart, m.mEnd) := by
      apply Option.some.inj
      rw [← htok, ← halt, hm0]
    have hcap : kl ++ '-' :: ds = m.capture := congrArg Prod.fst hinj
    simp only [List.map_cons]
    exact List.mem_cons.mpr (Or.inl hcap)
  · exfalso
    omega

/-- Soundness of the delivered matches: every match with a participating
group 1 comes from the first alternative at its start position. -/
theorem findAllFrom_anchored (keys : List String) (s : List Char) :
    ∀ fuel i prevEnd m, m ∈ findAllFrom keys s fuel i prevEnd → m.capture ≠ [] →
      matchAlt1At keys s m.mStart = some (m.capture, m.capStart, m.mEnd) := by
  intro fuel
  induction fuel with
  | zero => intro i prevEnd m hm hne; exact absurd hm (by simp [findAllFrom])
  | succ n ih =>
    intro i prevEnd m hm hne
    simp only [findAllFrom] at hm
    cases hfind : findFrom keys s (s.length + 1) i with
    | none => simp only [hfind] at hm; exact absurd hm (by simp)
    | some m' =>
      simp only [hfind] at hm
      obtain ⟨h1, h2, h3, h4⟩ := findFrom_inv keys s (s.length + 1) i m' hfind
      by_cases hcap : m'.capture = []
      · rw [if_pos hcap] at hm
        by_cases hpe : (m'.mEnd : Int) = prevEnd
        · rw [if_pos hpe] at hm
          exact ih _ _ m hm hne
        · rw [if_neg hpe] at hm
          rcases List.mem_cons.mp hm with rfl | hmtail
          · exact absurd hcap hne
          · exact ih _ _ m hmtail hne
      · rw [if_neg hcap] at hm
        rcases List.mem_cons.mp hm with rfl | hmtail
        · rcases h4 with halt | ⟨hmE, _⟩
          · exact halt
          · exact absurd (by rw [hmE]) hcap
        · exact ih _ _ m hmtail hne

/-! ## Single-step evaluation lemmas for the scan -/

theorem findFrom_hit (keys : List String) (s : List Char) (fuel i : Nat)
    (g : List Char) (cs e : Nat)
    (hfuel : fuel ≠ 0) (hi : i ≤ s.length)
    (hm : matchAlt1At keys s i = some (g, cs, e)) :
    findFrom keys s fuel i = some ⟨g, i, cs, e⟩ := by
  cases fuel with
  | zero => exact absurd rfl hfuel
  | succ n =>
    simp only [findFrom]
    rw [if_neg (by omega), hm]

theorem findFrom_dollar (keys : List String) (s : List Char) (fuel : Nat)
    (hfuel : fuel ≠ 0) :
    findFrom keys s fuel s.length = some ⟨[], s.length, s.length, s.length⟩ := by
  cases fuel with
  | zero => exact absurd rfl hfuel
  | succ n =>
    simp [findFrom, matchAlt1At_ge keys s s.length (le_refl _)]

theorem findAllFrom_step_deliver (keys : List String) (s : List Char)
    (fuel i : Nat) (prevEnd : Int) (m : MatchResult)
    (hfuel : fuel ≠ 0)
    (hfind : findFrom keys s (s.length + 1) i = some m)
    (hcap : m.capture ≠ []) :
    findAllFrom keys s fuel i prevEnd
      = m :: findAllFrom keys s (fuel - 1) m.mEnd m.mEnd := by
  cases fuel with
  | zero => exact absurd rfl hfuel
  | succ n => simp only [findAllFrom, hfind, if_neg hcap, Nat.succ_sub_one]

theorem findAllFrom_step_suppress (keys : List String) (s : List Char)
    (fuel i : Nat) (prevEnd : Int) (m : MatchResult)
    (hfuel : fuel ≠ 0)
    (hfind : findFrom keys s (s.length + 1) i = some m)
    (hcap : m.capture = []) (hpe : (m.mEnd : Int) = prevEnd) :
    findAllFrom keys s fuel i prevEnd
      = findAllFrom keys s (fuel - 1) (i + 1) m.mEnd := by
  cases fuel with
  | zero => exact absurd rfl hfuel
  | succ n => simp only [findAllFrom, hfind, if_pos hcap, if_pos hpe, Nat.succ_sub_one]

theorem findAllFrom_stop (keys : List String) (s : List Char)
    (fuel i : Nat) (prevEnd : Int)
    (hfind : findFrom keys s (s.length + 1) i = none) :
    findAllFrom keys s fuel i prevEnd = [] := by
  cases fuel with
  | zero => rfl
  | succ n => simp only [findAllFrom, hfind]

/-! ## The exact match list of a twice-mentioned token -/

theorem findAll_two_tokens (keys : List String) (kl ds : List Char)
    (hgood : ∀ k ∈ keys, goodKey k.toList = true)
    (hk : kl ∈ keys.map String.toList)
    (hne : ds ≠ []) (hds : ds.all Char.isDigit = true) :
    findAllList keys ((kl ++ '-' :: ds) ++ ' ' :: (kl ++ '-' :: ds))
      = [⟨kl ++ '-' :: ds, 0, 0, (kl ++ '-' :: ds).length⟩,
         ⟨kl ++ '-' :: ds, (kl ++ '-' :: ds).length, (kl ++ '-' :: ds).length + 1,
          ((kl ++ '-' :: ds) ++ ' ' :: (kl ++ '-' :: ds)).length⟩] := by
  have hlen : ((kl ++ '-' :: ds) ++ ' ' :: (kl ++ '-' :: ds)).length
      = (kl ++ '-' :: ds).length + 1 + (kl ++ '-' :: ds).length := by
    simp only [List.length_append, List.length_cons]
    omega
  have hm1 : matchAlt1At keys ((kl ++ '-' :: ds) ++ ' ' :: (kl ++ '-' :: ds)) 0
      = some (kl ++ '-' :: ds, 0, (kl ++ '-' :: ds).length) := by
    have h0 := matchAlt1At_token_start keys kl ds (' ' :: (kl ++ '-' :: ds)) hgood hk
      hne hds (by rfl)
    have hsh : kl ++ '-' :: (ds ++ ' ' :: (kl ++ '-' :: ds))
        = (kl ++ '-' :: ds) ++ ' ' :: (kl ++ '-' :: ds) := by simp
    rw [hsh] at h0
    have hnum : 0 + (kl ++ '-' :: ds).length + plusLen (' ' :: (kl ++ '-' :: ds))
        = (kl ++ '-' :: ds).length := by
      simp [plusLen]
    rw [hnum] at h0
    exact h0
  have hm2 : matchAlt1At keys ((kl ++ '-' :: ds) ++ ' ' :: (kl ++ '-' :: ds))
      (kl ++ '-' :: ds).length
      = some (kl ++ '-' :: ds, (kl ++ '-' :: ds).length + 1,
          ((kl ++ '-' :: ds) ++ ' ' :: (kl ++ '-' :: ds)).length) := by
    have h0 := matchAlt1At_token_mid keys (kl ++ '-' :: ds) ' ' kl ds [] hgood hk
      (by decide) hne hds (by decide)
    have hsh : (kl ++ '-' :: ds) ++ ' ' :: (kl ++ '-' :: (ds ++ []))
        = (kl ++ '-' :: ds) ++ ' ' :: (kl ++ '-' :: ds) := by simp
    rw [hsh] at h0
    have hnum : (kl ++ '-' :: ds).length + 1 + (kl ++ '-' :: ds).length + plusLen []
        = ((kl ++ '-' :: ds) ++ ' ' :: (kl ++ '-' :: ds)).length := by
      simp only [plusLen, List.length_append, List.length_cons]
      omega
    rw [hnum] at h0
    exact h0
  have hf1 : findFrom keys ((kl ++ '-' :: ds) ++ ' ' :: (kl ++ '-' :: ds))
      (((kl ++ '-' :: ds) ++ ' ' :: (kl ++ '-' :: ds)).length + 1) 0
      = some ⟨kl ++ '-' :: ds, 0, 0, (kl ++ '-' :: ds).length⟩ :=
    findFrom_hit _ _ _ _ _ _ _ (by omega) (by omega) hm1
  have hf2 : findFrom keys ((kl ++ '-' :: ds) ++ ' ' :: (kl ++ '-' :: ds))
      (((kl ++ '-' :: ds) ++ ' ' :: (kl ++ '-' :: ds)).length + 1) (kl ++ '-' :: ds).length
      = some ⟨kl ++ '-' :: ds, (kl ++ '-' :: ds).length, (kl ++ '-' :: ds).length + 1,
          ((kl ++ '-' :: ds) ++ ' ' :: (kl ++ '-' :: ds)).length⟩ :=
    findFrom_hit _ _ _ _ _ _ _ (by omega) (by omega) hm2
  have hf3 : findFrom keys ((kl ++ '-' :: ds) ++ ' ' :: (kl ++ '-' :: ds))
      (((kl ++ '-' :: ds) ++ ' ' :: (kl ++ '-' :: ds)).length + 1)
      ((kl ++ '-' :: ds) ++ ' ' :: (kl ++ '-' :: ds)).length
      = some ⟨[], ((kl ++ '-' :: ds) ++ ' ' :: (kl ++ '-' :: ds)).length,
          ((kl ++ '-' :: ds) ++ ' ' :: (kl ++ '-' :: ds)).length,
          ((kl ++ '-' :: ds) ++ ' ' :: (kl ++ '-' :: ds)).length⟩ :=
    findFrom_dollar _ _ _ (by omega)
  unfold findAllList
  rw [findAllFrom_step_deliver _ _ _ _ _ _ (by omega) hf1 (by simp)]
  dsimp only
  rw [findAllFrom_step_deliver _ _ _ _ _ _ (by omega) hf2 (by simp)]
  dsimp only
  rw [findAllFrom_step_suppress _ _ _ _ _ _ (by omega) hf3 rfl rfl]
  dsimp only
  rw [findAllFrom_stop _ _ _ _ _
    (findFrom_gt _ _ _ _ (by omega))]

/-! ## Resolution and dispatch: success-path lemmas -/

theorem GetIssue_success (p : IssueP) (f : IssueFieldsP)
    (hkey : p.key ≠ "") (hf : p.fields = some f) :
    GetIssue (.body 200 (.value p))
      = .ok (.ok ⟨p.key, some { f with assignee := some (match f.assignee with
          | none => ⟨"Unassigned"⟩
          | some a => a) }⟩) := by
  simp [GetIssue, consumeResponse, hkey, hf]

theorem sendMessage_ok (hostURL : String) (i : IssueP) (channel : String)
    (f : IssueFieldsP) (a : AssigneeP) (pr : PriorityP) (st : StatusP)
    (hf : i.fields = some f) (ha : f.assignee = some a) (hpr : f.priority = some pr)
    (hst : f.status = some st) :
    sendMessage hostURL i channel = .ok (channel,
      { title := i.key
        titleLink := hostURL ++ "/browse/" ++ i.key
        text := "*" ++ f.summary ++ "*\n\n *Assignee* " ++ a.displayName ++
                " *Priority* " ++ pr.name ++ " "
        color := getColor st.name
        markdownIn := ["text", "pretext"]
        iconURL := jiraIcon
        username := "Jira" }) := by
  simp [sendMessage, hf, ha, hpr, hst]

theorem trimSpace_eq_self (l : List Char) (h : ∀ c ∈ l, c.isWhitespace = false) :
    trimSpace l = l := by
  have hdw : ∀ (l' : List Char), (∀ c ∈ l', c.isWhitespace = false) →
      l'.dropWhile Char.isWhitespace = l' := by
    intro l' h'
    cases l' with
    | nil => rfl
    | cons x t =>
      rw [List.dropWhile_cons, h' x (List.mem_cons_self x t)]
      simp
  unfold trimSpace
  rw [hdw l h, hdw l.reverse (fun c hc => h c (List.mem_reverse.mp hc)),
    List.reverse_reverse]

theorem token_no_whitespace (kl ds : List Char) (hklg : goodKey kl = true)
    (hds : ds.all Char.isDigit = true) :
    ∀ c ∈ kl ++ '-' :: ds, c.isWhitespace = false := by
  intro c hc
  rcases List.mem_append.mp hc with hkl | hcds
  · exact isWordChar_not_whitespace c (goodKey_all_word kl hklg c hkl)
  · rcases List.mem_cons.mp hcds with rfl | hds'
    · decide
    · exact isWordChar_not_whitespace c (isDigit_word c ((List.all_eq_true.mp hds) c hds'))

/-! ## Claims: the startup, transport and shutdown bugs (closed statements) -/

/-- C1: the claim states that with an empty project list the compiled pattern
matches zero references in every text and `processEvents` triggers no
resolution.  The code violates this: the pattern
`(?:\W|^)(()-\d+)(\+)?|$` still matches bare `-digits` tokens (text `-123`
yields the capture `-123` and a `GetIssue("-123")` lookup), and for a text
with no such token (e.g. `hello`) the trailing `|$` alternative still yields
one match with empty capture and a `GetIssue("")` lookup. -/
theorem c1_empty_projects_still_match :
    (findAllList (projectKeys []) "-123".toList).map MatchResult.capture
      = [['-', '1', '2', '3']]
    ∧ processEvents (projectKeys []) (fun _ => .body 404 .malformed) "host"
        "-123".toList "C" = .ok ([['-', '1', '2', '3']], [])
    ∧ processEvents (projectKeys []) (fun _ => .body 404 .malformed) "host"
        "hello".toList "C" = .ok ([[]], []) := by
  exact ⟨by decide, by decide, by decide⟩

/-- C2: the claim states that a failed startup project fetch is fatal and the
process does not proceed to build the matcher and serve.  The code violates
this: `GetProjects` does return an error on a non-success status, but `main`
executes `Client.GetProjects()` discarding that error and proceeds to
`buildPattern()` (over the still-empty `Projects`) and the event loop. -/
theorem c2_startup_error_not_fatal :
    GetProjects (.body 503 (.value [⟨"1", "PROJ"⟩])) = .ok (.error (statusErrMsg 503))
    ∧ mainStartup (.body 503 (.value [⟨"1", "PROJ"⟩]))
        = .ok { projects := [],
                patternSource := "(?:\\W|^)(()-\\d+)(\\+)?|$",
                serving := true } := by
  exact ⟨rfl, by decide⟩

/-- C3: the claim states that a transport/network failure of the issue
lookup's round trip makes `GetIssue` return an error rather than crash.  The
code violates this: `consumeResponse` executes `response.StatusCode` on the
nil response that `httpClient.Do` returns alongside a network error, a nil
pointer dereference, so the lookup panics instead of returning an error. -/
theorem c3_transport_error_panics :
    @consumeResponse (JsonBody IssueP) HttpResult.transportError = .panic nilDerefMsg
    ∧ GetIssue .transportError = .panic nilDerefMsg := by
  exact ⟨rfl, rfl⟩

/-- C4: the claim states that after the loop terminates on fatal auth
failure, the wait for in-flight `processEvents` units completes once all
units are done.  The code violates this: `processEvents` receives the
`sync.WaitGroup` by value, so each unit's deferred `wg.Done()` decrements
its own copy (which does reach zero), while `main`'s counter stays at the
number of dispatched units and `wg.Wait()` never returns. -/
theorem c4_wait_never_returns :
    (runLoop ⟨0, []⟩ [.message "see PROJ-1" "C" "", .invalidAuth]).mainWg = 1
    ∧ (runLoop ⟨0, []⟩ [.message "see PROJ-1" "C" "", .invalidAuth]).unitCopies.map unitDone
        = [0]
    ∧ ¬ waitReturns (runLoop ⟨0, []⟩ [.message "see PROJ-1" "C" "", .invalidAuth]).mainWg := by
  exact ⟨rfl, rfl, by decide⟩

/-! ## Claims: matcher correctness -/

/-- C5 counterexample: `PROJ-2` in `PROJ-1+PROJ-2` is a well-formed
KEY-NUMBER token preceded by the non-word character `+`, yet the pattern
does not match it: the preceding match `PROJ-1+` consumes the `+` via its
trailing `(\+)?` group, and scanning resumes after it, so only `PROJ-1`
(and the final empty `$` match) are found. -/
theorem c5_counterexample :
    (findAllList ["PROJ"] "PROJ-1+PROJ-2".toList).map MatchResult.capture
      = [['P', 'R', 'O', 'J', '-', '1'], []]
    ∧ ['P', 'R', 'O', 'J', '-', '2'] ∉
        (findAllList ["PROJ"] "PROJ-1+PROJ-2".toList).map MatchResult.capture
    ∧ isWordChar '+' = false := by
  exact ⟨by decide, by decide, by decide⟩

/-- C6 counterexample: a message containing the same ticket key twice does
NOT always trigger exactly two resolutions: in `PROJ-1 PROJ-1 x` the text
continues past the second token, so the trailing `|$` alternative yields a
third, empty capture and `processEvents` performs a third `GetIssue` lookup
with the empty key (which fails), for three resolutions and two
notifications. -/
theorem c6_counterexample :
    processEvents ["PROJ"]
      (fun k => if k = "PROJ-1".toList then
        HttpResult.body 200 (.value ⟨"PROJ-1", some ⟨none, "Fix it", none, some ⟨"Ann"⟩,
          some ⟨"High", ""⟩, some ⟨"Open", ""⟩⟩⟩)
       else .body 404 .malformed)
      "host" "PROJ-1 PROJ-1 x".toList "C"
      = .ok ([['P', 'R', 'O', 'J', '-', '1'], ['P', 'R', 'O', 'J', '-', '1'], []],
             [("C", ⟨"PROJ-1", "host/browse/PROJ-1",
                "*Fix it*\n\n *Assignee* Ann *Priority* High ", "#496686",
                ["text", "pretext"], jiraIcon, "Jira"⟩),
              ("C", ⟨"PROJ-1", "host/browse/PROJ-1",
                "*Fix it*\n\n *Assignee* Ann *Priority* High ", "#496686",
                ["text", "pretext"], jiraIcon, "Jira"⟩)]) := by
  decide

/-- C9 counterexample: not every input text yields a match with empty
capture: when a reference match ends exactly at end of text (text
`PROJ-1`), Go's FindAll suppresses the adjacent empty `$` match, so
`processEvents` performs only the one `PROJ-1` lookup and no empty-key
lookup. -/
theorem c9_counterexample :
    (findAllList ["PROJ"] "PROJ-1".toList).map MatchResult.capture
      = [['P', 'R', 'O', 'J', '-', '1']]
    ∧ [] ∉ (findAllList ["PROJ"] "PROJ-1".toList).map MatchResult.capture
    ∧ processEvents ["PROJ"] (fun _ => .body 404 .malformed) "host"
        "PROJ-1".toList "C" = .ok ([['P', 'R', 'O', 'J', '-', '1']], []) := by
  exact ⟨by decide, by decide, by decide⟩

/-- C10 counterexample: a status-200 body whose `fields` object lacks
priority and status is returned by `GetIssue` without error but with nil
Priority and Status, and `sendMessage` then panics on the nil dereference;
a status-200 body with no `fields` object at all makes `GetIssue` itself
panic instead of returning an error. -/
theorem c10_counterexample :
    GetIssue (.body 200 (.value ⟨"PROJ-1", some ⟨none, "s", none, none, none, none⟩⟩))
      = .ok (.ok ⟨"PROJ-1", some ⟨none, "s", none, some ⟨"Unassigned"⟩, none, none⟩⟩)
    ∧ sendMessage "host" ⟨"PROJ-1", some ⟨none, "s", none, some ⟨"Unassigned"⟩, none, none⟩⟩
        "C" = .panic nilDerefMsg
    ∧ GetIssue (.body 200 (.value ⟨"PROJ-1", none⟩)) = .panic nilDerefMsg := by
  exact ⟨rfl, by decide, rfl⟩

/-- C7: assignee normalization.  For a 200 response whose payload has a
non-empty key and a present `fields` object, a missing assignee is replaced
by the sentinel display name `Unassigned`, and a present assignee is
returned unchanged (all other fields untouched). -/
theorem c7_assignee_normalization (p : IssueP) (f : IssueFieldsP)
    (hkey : p.key ≠ "") (hf : p.fields = some f) :
    (f.assignee = none →
      GetIssue (.body 200 (.value p))
        = .ok (.ok ⟨p.key, some { f with assignee := some ⟨"Unassigned"⟩ }⟩))
    ∧ (∀ a, f.assignee = some a →
      GetIssue (.body 200 (.value p))
        = .ok (.ok ⟨p.key, some { f with assignee := some a }⟩)) := by
  constructor
  · intro hna
    simp [GetIssue, consumeResponse, hkey, hf, hna]
  · intro a ha
    simp [GetIssue, consumeResponse, hkey, hf, ha]

/-- Witness for C7 at a concrete missing-assignee payload and a concrete
present-assignee payload. -/
theorem c7_assignee_normalization_witness :
    GetIssue (.body 200 (.value ⟨"K-1", some ⟨none, "s", none, none, none, none⟩⟩))
      = .ok (.ok ⟨"K-1", some ⟨none, "s", none, some ⟨"Unassigned"⟩, none, none⟩⟩)
    ∧ GetIssue (.body 200 (.value ⟨"K-1", some ⟨none, "s", none, some ⟨"Ann"⟩, none, none⟩⟩))
      = .ok (.ok ⟨"K-1", some ⟨none, "s", none, some ⟨"Ann"⟩, none, none⟩⟩) := by
  exact ⟨(c7_assignee_normalization ⟨"K-1", some ⟨none, "s", none, none, none, none⟩⟩
            ⟨none, "s", none, none, none, none⟩ (by decide) rfl).1 rfl,
         (c7_assignee_normalization ⟨"K-1", some ⟨none, "s", none, some ⟨"Ann"⟩, none, none⟩⟩
            ⟨none, "s", none, some ⟨"Ann"⟩, none, none⟩ (by decide) rfl).2 ⟨"Ann"⟩ rfl⟩

/-- C5 (amended): for every non-empty list of well-formed project keys
(nonempty, led by a letter, word characters only — the spec's ProjectKey
shape), the compiled pattern matches every well-formed KEY-NUMBER token that
starts the text or is preceded by a non-word character other than `+` (a
token whose preceding `+` was consumed by the immediately preceding match's
trailing `(\+)?` group can be skipped, e.g. in `PROJ-1+PROJ-2` only
`PROJ-1` is matched — see the counterexample), and it never matches a
key-like substring embedded inside a longer alphanumeric token: every
delivered capture occurs verbatim at its position and that position is the
start of the text or preceded by a non-word character. -/
theorem c5_pattern_matching (keys : List String) (hnonempty : keys ≠ [])
    (hgood : ∀ k ∈ keys, goodKey k.toList = true) (s : List Char) :
    (∀ pre c kl ds post, s = pre ++ c :: (kl ++ '-' :: (ds ++ post)) →
        kl ∈ keys.map String.toList → isWordChar c = false → c ≠ '+' →
        ds ≠ [] → ds.all Char.isDigit = true → headNotDigit post = true →
        (kl ++ '-' :: ds) ∈ (findAllList keys s).map MatchResult.capture)
    ∧ (∀ kl ds post, s = kl ++ '-' :: (ds ++ post) →
        kl ∈ keys.map String.toList →
        ds ≠ [] → ds.all Char.isDigit = true → headNotDigit post = true →
        (kl ++ '-' :: ds) ∈ (findAllList keys s).map MatchResult.capture)
    ∧ (∀ m ∈ findAllList keys s, m.capture ≠ [] →
        m.capture.isPrefixOf (s.drop m.capStart) = true ∧
        (m.capStart = 0 ∨
         ∃ c, charAt s (m.capStart - 1) = some c ∧ isWordChar c = false)) := by
  refine ⟨?_, ?_, ?_⟩
  · intro pre c kl ds post hs hk hc hcp hne hds hpost
    subst hs
    exact findAllFrom_token keys pre c kl ds post hgood hk hc hcp hne hds hpost
      ((pre ++ c :: (kl ++ '-' :: (ds ++ post))).length + 2) 0 (-1) (by omega) (by omega)
  · intro kl ds post hs hk hne hds hpost
    subst hs
    exact findAllList_token_start keys kl ds post hgood hk hne hds hpost
  · intro m hm hne
    unfold findAllList at hm
    have halt := findAllFrom_anchored keys s _ 0 (-1) m hm hne
    obtain ⟨⟨a, dsx, rest, ha, hg, hdsne, hdsall, hdropcs, hhead, he⟩, hpos⟩ :=
      matchAlt1At_inv keys s m.mStart m.capture m.capStart m.mEnd halt
    constructor
    · exact List.isPrefixOf_iff_prefix.mpr ⟨rest, hdropcs.symm⟩
    · rcases hpos with ⟨hcs1, c, tl, hdrop, hcw⟩ | ⟨hcs0, hm0⟩
      · refine Or.inr ⟨c, ?_, hcw⟩
        unfold charAt
        rw [hcs1]
        simp only [Nat.add_sub_cancel]
        rw [hdrop]
        rfl
      · exact Or.inl (by omega)

/-- Witness for C5 at concrete inputs: key list `[PROJ]`, a mid-text token
(` PROJ-42!`) and a token at the start of the text (`PROJ-42 rest`). -/
theorem c5_pattern_matching_witness :
    ['P', 'R', 'O', 'J', '-', '4', '2'] ∈
      (findAllList ["PROJ"] " PROJ-42!".toList).map MatchResult.capture
    ∧ ['P', 'R', 'O', 'J', '-', '4', '2'] ∈
      (findAllList ["PROJ"] "PROJ-42 rest".toList).map MatchResult.capture := by
  constructor
  · exact (c5_pattern_matching ["PROJ"] (by simp) (by decide) " PROJ-42!".toList).1
      [] ' ' "PROJ".toList ['4', '2'] ['!'] (by decide) (by decide) (by decide)
      (by decide) (by decide) (by decide) (by decide)
  · exact ((c5_pattern_matching ["PROJ"] (by simp) (by decide) "PROJ-42 rest".toList).2).1
      "PROJ".toList ['4', '2'] " rest".toList (by decide) (by decide) (by decide)
      (by decide) (by decide)

/-- C6 (amended): a message consisting of the same well-formed ticket token
twice, separated by a space, triggers exactly two resolutions of that key
and, when resolution succeeds with a renderable issue, exactly two
notifications — each occurrence is resolved separately, with no
deduplication.  (When the text continues past the final matched token, the
trailing `|$` alternative adds one extra empty-key lookup — see the
counterexample — so "exactly two resolutions" does not hold for every text
containing the token twice.) -/
theorem c6_duplicate_mentions (keys : List String) (kl ds : List Char)
    (resolver : List Char → HttpResult (JsonBody IssueP))
    (hostURL channel : String) (p : IssueP) (f : IssueFieldsP)
    (pr : PriorityP) (st : StatusP)
    (hgood : ∀ k ∈ keys, goodKey k.toList = true)
    (hk : kl ∈ keys.map String.toList)
    (hne : ds ≠ []) (hds : ds.all Char.isDigit = true)
    (hres : resolver (kl ++ '-' :: ds) = .body 200 (.value p))
    (hkey : p.key ≠ "") (hf : p.fields = some f)
    (hpr : f.priority = some pr) (hst : f.status = some st) :
    ∃ card,
      processEvents keys resolver hostURL
        ((kl ++ '-' :: ds) ++ ' ' :: (kl ++ '-' :: ds)) channel
        = .ok ([kl ++ '-' :: ds, kl ++ '-' :: ds], [card, card]) := by
  have hklg : goodKey kl = true := by
    obtain ⟨k, hkmem, hke⟩ := List.mem_map.mp hk
    rw [← hke]; exact hgood k hkmem
  have htrim : trimSpace (kl ++ '-' :: ds) = kl ++ '-' :: ds :=
    trimSpace_eq_self _ (token_no_whitespace kl ds hklg hds)
  obtain ⟨A, hA⟩ : ∃ A, (match f.assignee with
      | none => (⟨"Unassigned"⟩ : AssigneeP)
      | some a => a) = A := ⟨_, rfl⟩
  have hgi : GetIssue (.body 200 (.value p))
      = .ok (.ok ⟨p.key, some { f with assignee := some A }⟩) := by
    rw [GetIssue_success p f hkey hf, hA]
  have hsend : sendMessage hostURL ⟨p.key, some { f with assignee := some A }⟩ channel
      = .ok (channel,
        { title := p.key
          titleLink := hostURL ++ "/browse/" ++ p.key
          text := "*" ++ f.summary ++ "*\n\n *Assignee* " ++ A.displayName ++
                  " *Priority* " ++ pr.name ++ " "
          color := getColor st.name
          markdownIn := ["text", "pretext"]
          iconURL := jiraIcon
          username := "Jira" }) := by
    exact sendMessage_ok hostURL _ channel { f with assignee := some A } A pr st
      rfl rfl (by simpa using hpr) (by simpa using hst)
  refine ⟨(channel,
    { title := p.key
      titleLink := hostURL ++ "/browse/" ++ p.key
      text := "*" ++ f.summary ++ "*\n\n *Assignee* " ++ A.displayName ++
              " *Priority* " ++ pr.name ++ " "
      color := getColor st.name
      markdownIn := ["text", "pretext"]
      iconURL := jiraIcon
      username := "Jira" }), ?_⟩
  unfold processEvents
  rw [findAll_two_tokens keys kl ds hgood hk hne hds]
  simp only [List.map_cons, List.map_nil]
  rw [htrim]
  simp only [runRefs, hres, hgi, hsend]

/-- Witness for C6 at concrete inputs: key `PROJ`, message `PROJ-1 PROJ-1`,
a resolver answering 200 with a full payload for `PROJ-1`. -/
theorem c6_duplicate_mentions_witness :
    ∃ card,
      processEvents ["PROJ"]
        (fun k => if k = "PROJ-1".toList then
          HttpResult.body 200 (.value ⟨"PROJ-1", some ⟨none, "Fix it", none, some ⟨"Ann"⟩,
            some ⟨"High", ""⟩, some ⟨"Open", ""⟩⟩⟩)
         else .body 404 .malformed)
        "host" "PROJ-1 PROJ-1".toList "C"
        = .ok (["PROJ-1".toList, "PROJ-1".toList], [card, card]) := by
  have h := c6_duplicate_mentions ["PROJ"]
    "PROJ".toList ['1']
    (fun k => if k = "PROJ-1".toList then
      HttpResult.body 200 (.value ⟨"PROJ-1", some ⟨none, "Fix it", none, some ⟨"Ann"⟩,
        some ⟨"High", ""⟩, some ⟨"Open", ""⟩⟩⟩)
     else .body 404 .malformed)
    "host" "C"
    ⟨"PROJ-1", some ⟨none, "Fix it", none, some ⟨"Ann"⟩, some ⟨"High", ""⟩,
      some ⟨"Open", ""⟩⟩⟩
    ⟨none, "Fix it", none, some ⟨"Ann"⟩, some ⟨"High", ""⟩, some ⟨"Open", ""⟩⟩
    ⟨"High", ""⟩ ⟨"Open", ""⟩
    (by decide) (by decide) (by decide) (by decide) (by decide) (by decide) rfl rfl rfl
  exact h

/-- Every benign lookup sequence runs to completion: all keys are looked up
in order regardless of failures, and exactly the successful ones dispatch a
card. -/
theorem runRefs_benign (resolver : List Char → HttpResult (JsonBody IssueP))
    (hostURL channel : String) (l : List (List Char))
    (hben : ∀ k, benign (resolver k) = true) :
    ∃ cards, runRefs resolver hostURL channel l = .ok (l, cards)
      ∧ cards.length = l.countP (fun k => !(lookupFails (resolver k))) := by
  induction l with
  | nil => exact ⟨[], rfl, rfl⟩
  | cons k rest ih =>
    obtain ⟨cards, hrun, hlenc⟩ := ih
    have hb := hben k
    unfold benign at hb
    cases hg : GetIssue (resolver k) with
    | panic m => rw [hg] at hb; simp at hb
    | ok e =>
      cases e with
      | error err =>
        have hfail : lookupFails (resolver k) = true := by
          unfold lookupFails; rw [hg]
        refine ⟨cards, ?_, ?_⟩
        · simp only [runRefs, hg, hrun]
        · rw [hlenc, List.countP_cons, hfail]
          simp
      | ok issue =>
        have hsafe : renderSafe issue = true := by rw [hg] at hb; exact hb
        obtain ⟨card, hcard⟩ : ∃ card, sendMessage hostURL issue channel = .ok card := by
          unfold renderSafe at hsafe
          cases hfi : issue.fields with
          | none => rw [hfi] at hsafe; simp at hsafe
          | some ff =>
            rw [hfi] at hsafe
            simp only [Bool.and_eq_true, Option.isSome_iff_exists] at hsafe
            obtain ⟨⟨⟨a, haa⟩, pr, hpp⟩, st, hss⟩ := hsafe
            exact ⟨_, sendMessage_ok hostURL issue channel ff a pr st hfi haa hpp hss⟩
        have hfail : lookupFails (resolver k) = false := by
          unfold lookupFails; rw [hg]
        refine ⟨card :: cards, ?_, ?_⟩
        · simp only [runRefs, hg, hcard, hrun]
        · rw [List.length_cons, hlenc, List.countP_cons, hfail]
          simp

/-- C8: per-reference failure isolation.  For every message, every extracted
reference is looked up, in order, regardless of how many lookups fail, and
exactly the successfully resolved references dispatch a notification — a
failing reference contributes zero cards and does not stop the loop.  (The
resolver is assumed benign — it does not hit the separate transport-panic
and nil-field-panic bugs — which is exactly the claim's scope of
"non-success status or empty key" failures.) -/
theorem c8_failure_isolation (keys : List String)
    (resolver : List Char → HttpResult (JsonBody IssueP))
    (hostURL channel : String) (text : List Char)
    (hben : ∀ k, benign (resolver k) = true) :
    ∃ cards,
      processEvents keys resolver hostURL text channel
        = .ok ((findAllList keys text).map (fun m => trimSpace m.capture), cards)
      ∧ cards.length
          = ((findAllList keys text).map (fun m => trimSpace m.capture)).countP
              (fun k => !(lookupFails (resolver k))) :=
  runRefs_benign resolver hostURL channel _ hben

/-- Witness for C8: message `PROJ-1 PROJ-2 x` where `PROJ-1` resolves with
status 404, `PROJ-2` resolves successfully, and the trailing empty capture
fails: all three lookups happen, one card is dispatched. -/
theorem c8_failure_isolation_witness :
    ∃ cards,
      processEvents ["PROJ"]
        (fun k => if k = "PROJ-2".toList then
          HttpResult.body 200 (.value ⟨"PROJ-2", some ⟨none, "s", none, none,
            some ⟨"High", ""⟩, some ⟨"Open", ""⟩⟩⟩)
         else .body 404 .malformed)
        "host" "PROJ-1 PROJ-2 x".toList "C"
        = .ok ((findAllList ["PROJ"] "PROJ-1 PROJ-2 x".toList).map
            (fun m => trimSpace m.capture), cards)
      ∧ cards.length
          = ((findAllList ["PROJ"] "PROJ-1 PROJ-2 x".toList).map
              (fun m => trimSpace m.capture)).countP
              (fun k => !(lookupFails (if k = "PROJ-2".toList then
                HttpResult.body 200 (.value ⟨"PROJ-2", some ⟨none, "s", none, none,
                  some ⟨"High", ""⟩, some ⟨"Open", ""⟩⟩⟩)
               else .body 404 .malformed))) := by
  apply c8_failure_isolation
  intro k
  by_cases h : k = "PROJ-2".toList
  · rw [if_pos h]; decide
  · rw [if_neg h]; decide

/-! ## C9: the end-of-text empty match -/

theorem findFrom_all_none (keys : List String) (s : List Char)
    (hnone : ∀ j, j ≤ s.length → matchAlt1At keys s j = none) :
    ∀ fuel i, i ≤ s.length → s.length + 1 - i ≤ fuel →
      findFrom keys s fuel i = some ⟨[], s.length, s.length, s.length⟩ := by
  intro fuel
  induction fuel with
  | zero => intro i hi hf; omega
  | succ n ih =>
    intro i hi hf
    simp only [findFrom, hnone i hi]
    rw [if_neg (by omega)]
    by_cases hieq : i = s.length
    · rw [if_pos hieq]
    · rw [if_neg hieq]
      exact ih (i + 1) (by omega) (by omega)

theorem findAllFrom_step_accept_empty (keys : List String) (s : List Char)
    (fuel i : Nat) (prevEnd : Int) (m : MatchResult)
    (hfuel : fuel ≠ 0)
    (hfind : findFrom keys s (s.length + 1) i = some m)
    (hcap : m.capture = []) (hpe : (m.mEnd : Int) ≠ prevEnd) :
    findAllFrom keys s fuel i prevEnd
      = m :: findAllFrom keys s (fuel - 1) (i + 1) m.mEnd := by
  cases fuel with
  | zero => exact absurd rfl hfuel
  | succ n => simp only [findAllFrom, hfind, if_pos hcap, if_neg hpe, Nat.succ_sub_one]

theorem findAllFrom_all_none_tail (keys : List String) (s : List Char)
    (hnone : ∀ j, j ≤ s.length → matchAlt1At keys s j = none) :
    ∀ fuel i, 1 ≤ i →
      findAllFrom keys s fuel i (s.length : Int) = [] := by
  intro fuel
  induction fuel with
  | zero => intro i h1; rfl
  | succ n ih =>
    intro i h1
    by_cases hile : i ≤ s.length
    · rw [findAllFrom_step_suppress _ _ _ _ _ _ (by omega)
        (findFrom_all_none keys s hnone (s.length + 1) i hile (by omega)) rfl rfl]
      exact ih (i + 1) (by omega)
    · exact findAllFrom_stop _ _ _ _ _ (findFrom_gt _ _ _ _ (by omega))

theorem findAllList_all_none (keys : List String) (s : List Char)
    (hnone : ∀ j, j ≤ s.length → matchAlt1At keys s j = none) :
    findAllList keys s = [⟨[], s.length, s.length, s.length⟩] := by
  unfold findAllList
  rw [findAllFrom_step_accept_empty _ _ _ _ _ _ (by omega)
    (findFrom_all_none keys s hnone (s.length + 1) 0 (by omega) (by omega)) rfl
    (by dsimp only; omega)]
  rw [findAllFrom_all_none_tail keys s hnone _ 1 (by omega)]

/-- C9 (amended): when no position of the text carries a reference-like
match (in particular any text with no ticket reference at all), the
pattern's trailing `|$` alternative still yields exactly one match, whose
captured reference is the empty string, so `processEvents` performs exactly
one `GetIssue` lookup with the empty key; a response with non-success
status or empty payload key makes that lookup fail and no card is produced.
(This does NOT hold for every input text: when a reference match ends
exactly at end of text, Go's FindAll suppresses the adjacent empty match and
no empty-key lookup happens — see the counterexample.) -/
theorem c9_empty_capture_lookup (keys : List String) (text : List Char)
    (resolver : List Char → HttpResult (JsonBody IssueP)) (hostURL channel : String)
    (hnone : ∀ j, j ≤ text.length → matchAlt1At keys text j = none)
    (hfail : ∃ e, GetIssue (resolver []) = .ok (.error e)) :
    (findAllList keys text).map MatchResult.capture = [[]]
    ∧ processEvents keys resolver hostURL text channel = .ok ([[]], []) := by
  have hall := findAllList_all_none keys text hnone
  constructor
  · rw [hall]; rfl
  · unfold processEvents
    rw [hall]
    obtain ⟨e, he⟩ := hfail
    simp only [List.map_cons, List.map_nil]
    rw [show trimSpace [] = [] from rfl]
    simp only [runRefs, he]

/-- Witness for C9 at a concrete reference-free text. -/
theorem c9_empty_capture_lookup_witness :
    (findAllList ["PROJ"] "hello!".toList).map MatchResult.capture = [[]]
    ∧ processEvents ["PROJ"] (fun _ => .body 404 .malformed) "host" "hello!".toList "C"
        = .ok ([[]], []) :=
  c9_empty_capture_lookup ["PROJ"] "hello!".toList (fun _ => .body 404 .malformed)
    "host" "C" (by decide) ⟨statusErrMsg 404, rfl⟩

/-- C10 (amended): for a status-200 payload whose `fields` object is present
and contains priority and status, `GetIssue` returns an issue with non-nil
Fields, Assignee (normalized if absent), Priority and Status, and
`sendMessage` renders it without any nil dereference.  The original claim's
guarantee over EVERY 200 body is false: a body without priority/status is
returned with nil pointers (sendMessage then panics) and a body without a
fields object makes GetIssue itself panic — see the counterexample. -/
theorem c10_full_payload_renders (p : IssueP) (f : IssueFieldsP)
    (pr : PriorityP) (st : StatusP) (hostURL channel : String)
    (hkey : p.key ≠ "") (hf : p.fields = some f)
    (hpr : f.priority = some pr) (hst : f.status = some st) :
    ∃ i card, GetIssue (.body 200 (.value p)) = .ok (.ok i)
      ∧ (∃ ff, i.fields = some ff ∧ ff.assignee.isSome = true
          ∧ ff.priority = some pr ∧ ff.status = some st)
      ∧ sendMessage hostURL i channel = .ok card := by
  obtain ⟨A, hA⟩ : ∃ A, (match f.assignee with
      | none => (⟨"Unassigned"⟩ : AssigneeP)
      | some a => a) = A := ⟨_, rfl⟩
  refine ⟨⟨p.key, some { f with assignee := some A }⟩,
    (channel,
      { title := p.key
        titleLink := hostURL ++ "/browse/" ++ p.key
        text := "*" ++ f.summary ++ "*\n\n *Assignee* " ++ A.displayName ++
                " *Priority* " ++ pr.name ++ " "
        color := getColor st.name
        markdownIn := ["text", "pretext"]
        iconURL := jiraIcon
        username := "Jira" }), ?_, ?_, ?_⟩
  · rw [GetIssue_success p f hkey hf, hA]
  · exact ⟨{ f with assignee := some A }, rfl, rfl, by simpa using hpr, by simpa using hst⟩
  · have h := sendMessage_ok hostURL ⟨p.key, some { f with assignee := some A }⟩ channel
      { f with assignee := some A } A pr st rfl rfl (by simpa using hpr)
      (by simpa using hst)
    simpa using h

/-- Witness for C10 at a concrete full payload. -/
theorem c10_full_payload_renders_witness :
    ∃ i card, GetIssue (.body 200 (.value ⟨"PROJ-9", some ⟨none, "s", none, none,
        some ⟨"Low", ""⟩, some ⟨"Done", ""⟩⟩⟩)) = .ok (.ok i)
      ∧ (∃ ff, i.fields = some ff ∧ ff.assignee.isSome = true
          ∧ ff.priority = some ⟨"Low", ""⟩ ∧ ff.status = some ⟨"Done", ""⟩)
      ∧ sendMessage "host" i "C" = .ok card :=
  c10_full_payload_renders ⟨"PROJ-9", some ⟨none, "s", none, none,
      some ⟨"Low", ""⟩, some ⟨"Done", ""⟩⟩⟩
    ⟨none, "s", none, none, some ⟨"Low", ""⟩, some ⟨"Done", ""⟩⟩
    ⟨"Low", ""⟩ ⟨"Done", ""⟩ "host" "C" (by decide) rfl rfl rfl
